import Mathlib

/-!
# Context-sensitive null check analysis (lotus, `lib/NullPointer`)

A shallow embedding of `ContextSensitiveNullCheckAnalysis.cpp`: the query
`mayNull`, the bounded-round driver of `runOnModule`, its repair pass and its
statistics.  Pointers of the program (`Function*`, `Instruction*`, `Value*`)
are natural-number identities; the analysis map is an association list; the
collaborators whose code is not part of the translated file (the null flow
analysis, the local analysis, the thread pool) are parameters.
-/

namespace CSNCA

/-! ## Program representation -/

/-- A call site as it appears in a calling context: its identity and the name
`getName()` gives, `none` when `hasName()` is false. -/
structure CallSite where
  id : Nat
  name : Option String
deriving DecidableEq, Repr

/-- The type `Context`: a call string, oldest call site first; it is indexed,
sized, copied and erased from the front like a `std::vector`. -/
abbrev Context := List CallSite

/-- An operand `Value*`: its identity and `getType()->isPointerTy()`. -/
structure Value where
  id : Nat
  isPointerTy : Bool
deriving DecidableEq, Repr

/-- An `Instruction*`: its identity, `getFunction()` (the identity of the
parent function) and the operands `getOperand(0) .. getOperand(n-1)`. -/
structure Instruction where
  id : Nat
  getFunction : Nat
  operands : List Value
deriving DecidableEq, Repr

/-- A `Function` of the module: its identity (the address `&F`), its name and
its basic blocks, each a list of instructions. -/
structure Function where
  id : Nat
  name : String
  blocks : List (List Instruction)
deriving DecidableEq, Repr

/-- `F.empty()`: the function has no basic block (a declaration). -/
def Function.empty (F : Function) : Bool := F.blocks.isEmpty

/-- A `Module`, iterated as `for (auto &F : M)`. -/
abbrev Module := List Function

/-- The key `std::pair<Function*, Context>` of the analysis map and of the
set `FuncsWithContexts`. -/
abbrev Key := Nat × Context

/-! ## Collaborators -/

/-- Modelled from the spec: `ContextSensitiveLocalNullCheckAnalysis` is declared
in `NullPointer/ContextSensitiveLocalNullCheckAnalysis.h`, which is not among
the sources.  An object is built from `(NFA, F, Ctx)`, `run()` performs the
intraprocedural reasoning and `mayNull(Ptr, Inst)` reads the verdict.  `oid` is
the identity of the heap object, `runs` counts the calls of `run()` on it and
`verdict` is what the last `run()` left behind. -/
structure LocalAnalysis where
  oid : Nat
  fn : Nat
  ctx : Context
  runs : Nat
  verdict : Value → Instruction → Bool

/-- `LNCA->mayNull(Ptr, Inst)`. -/
def LocalAnalysis.mayNull (LNCA : LocalAnalysis) (Ptr : Value) (Inst : Instruction) : Bool :=
  LNCA.verdict Ptr Inst

/-- The object `new ContextSensitiveLocalNullCheckAnalysis(NFA, F, Ctx)` before
any `run()`.  Its `verdict` is a placeholder (MAY_NULL everywhere): the pass
calls `run()` on every object right after it creates it, so no query ever
reads a verdict that no `run()` has written. -/
def LocalAnalysis.create (oid : Nat) (F : Nat) (Ctx : Context) : LocalAnalysis :=
  { oid := oid, fn := F, ctx := Ctx, runs := 0, verdict := fun _ _ => true }

/-- A local analysis is completed once `run()` has been executed on it. -/
def LocalAnalysis.completed (LNCA : LocalAnalysis) : Prop := 0 < LNCA.runs

instance (LNCA : LocalAnalysis) : Decidable LNCA.completed :=
  inferInstanceAs (Decidable (0 < LNCA.runs))

/-- The collaborators of the pass as parameters: `ContextSensitiveNullFlowAnalysis`
(the oracle) and the body of `ContextSensitiveLocalNullCheckAnalysis::run` are
not among the sources, so they are arbitrary functions over an arbitrary
oracle state `σ`:
`notNull` answers a query in a state, `recompute` performs one propagation
step and returns the new state, its boolean result and the keys it puts in the
set it is handed, and `localRun` is the effect of one `run()` of a local
analysis: the new oracle state and the verdict the analysis then holds. -/
structure Env (σ : Type) where
  notNull : σ → Value → Context → Bool
  recompute : σ → σ × Bool × List Key
  localRun : σ → LocalAnalysis → σ × (Value → Instruction → Bool)

/-- The member `AnalysisMap`: each key owns a slot that holds a null pointer
(`none`) or a local analysis. -/
abbrev AnalysisMap := List (Key × Option LocalAnalysis)

/-- `AnalysisMap.find(K)`: `none` for `end()`, otherwise the slot. -/
def AnalysisMap.find (m : AnalysisMap) (K : Key) : Option (Option LocalAnalysis) :=
  List.lookup K m

/-- `AnalysisMap[K] = v`: the slot of `K` is overwritten when the key is
present and a new entry is added otherwise. -/
def AnalysisMap.assign : AnalysisMap → Key → Option LocalAnalysis → AnalysisMap
  | [], K, v => [(K, v)]
  | (K', v') :: m, K, v =>
    if K' = K then (K', v) :: m else (K', v') :: AnalysisMap.assign m K v

/-! ## The query `mayNull` -/

/-- Lines 239-242 of `mayNull`: the copy `LimitedCtx` of `Ctx` after the
erasure of its first `size() - MaxContextDepth` elements, done only when
`size() > MaxContextDepth`. -/
def limitContext (MaxContextDepth : Nat) (Ctx : Context) : Context :=
  if Ctx.length > MaxContextDepth then Ctx.drop (Ctx.length - MaxContextDepth) else Ctx

/-- `ContextSensitiveNullCheckAnalysis::mayNull(Ptr, Inst, Ctx)` in oracle
state `NFA` with analysis map `AMap`. -/
def mayNull {σ : Type} (E : Env σ) (MaxContextDepth : Nat) (NFA : σ) (AMap : AnalysisMap)
    (Ptr : Value) (Inst : Instruction) (Ctx : Context) : Bool :=
  let LimitedCtx := limitContext MaxContextDepth Ctx
  if E.notNull NFA Ptr LimitedCtx then false
  else
    match AMap.find (Inst.getFunction, LimitedCtx) with
    | some (some LNCA) => LNCA.mayNull Ptr Inst
    | _ =>
      match AMap.find (Inst.getFunction, []) with
      | some (some LNCA) => LNCA.mayNull Ptr Inst
      | _ => true

/-! ## The driver of `runOnModule` -/

/-- The state `runOnModule` works on: the member `AnalysisMap`, the state of
the null flow analysis `NFA`, and bookkeeping that the code does not hold but
that describes its run: `nextOid` is the identity the next `new` will give,
`aborted` is set when an exception has ended the run, `rounds` lists the
pending set of every executed iteration of the `do ... while` loop, `evals`
the result and dirty set of every call of `recompute`, and `repaired` the
functions for which the loop of lines 83-92 built an analysis. -/
structure St (σ : Type) where
  AMap : AnalysisMap
  NFA : σ
  nextOid : Nat
  aborted : Bool
  rounds : List (List Key)
  evals : List (Bool × List Key)
  repaired : List Nat

/-- The state at the entry of the loop of line 62: the map `AMap` as seeded,
the oracle state `NFA`, nothing allocated, run or logged yet. -/
def St.init {σ : Type} (AMap : AnalysisMap) (NFA : σ) : St σ :=
  { AMap := AMap, NFA := NFA, nextOid := 0, aborted := false, rounds := [], evals := [],
    repaired := [] }

/-- The round with pending set `Ks` is entered: it is added to the log. -/
def St.beginRound {σ : Type} (s : St σ) (Ks : List Key) : St σ :=
  { s with rounds := s.rounds ++ [Ks] }

/-- The call `NFA->recompute(FuncsWithContexts)` has returned `r`: the oracle
is in its new state and the result is added to the log. -/
def St.afterRecompute {σ : Type} (s : St σ) (r : σ × Bool × List Key) : St σ :=
  { s with NFA := r.1, evals := s.evals ++ [(r.2.1, r.2.2)] }

/-- `FuncsWithContexts.insert(K)` on a `std::set`: an element already in the
set is not added again. -/
def setInsert (S : List Key) (K : Key) : List Key :=
  if K ∈ S then S else S ++ [K]

/-- The set `FuncsWithContexts` after `recompute` has put the keys `dirty`
into it (it was cleared at line 78). -/
def toSet (dirty : List Key) : List Key :=
  dirty.foldl setInsert []

/-- Lines 54-59: every function with a body gets the slot
`AnalysisMap[{&F, EmptyContext}] = nullptr` and is put in `FuncsWithContexts`. -/
def seed : Module → AnalysisMap × List Key → AnalysisMap × List Key
  | [], acc => acc
  | F :: M, (AMap, FuncsWithContexts) =>
    if !F.empty then
      seed M (AMap.assign (F.id, []) none, setInsert FuncsWithContexts (F.id, []))
    else seed M (AMap, FuncsWithContexts)

/-- The task of lines 70-74 for the key `K`: `AnalysisMap.at(K)` throws
`std::out_of_range` when the key has no slot (`none`); otherwise the analysis
is created when the slot holds a null pointer, and `run()` is called on it. -/
def task {σ : Type} (E : Env σ) (K : Key) (s : St σ) : Option (St σ) :=
  match s.AMap.find K with
  | none => none
  | some slot =>
    let LNCA := match slot with
      | some a => a
      | none => LocalAnalysis.create s.nextOid K.1 K.2
    let nextOid := match slot with
      | some _ => s.nextOid
      | none => s.nextOid + 1
    let r := E.localRun s.NFA LNCA
    some { s with
      AMap := s.AMap.assign K (some { LNCA with runs := LNCA.runs + 1, verdict := r.2 })
      NFA := r.1
      nextOid := nextOid }

/-- Lines 66-77: one task per key of `FuncsWithContexts` is enqueued and
`wait()` returns when all have finished; each task writes the slot of its own
key only, so the state at `wait()` is that of running the tasks one after the
other.  `ThreadPool` is declared in `Support/ThreadPool.h`, which is not among
the sources, so what the pool does with an exception that escapes a task is
the parameter `swallow`: the exception is dropped with the discarded future
(`true`) or it ends the run (`false`). -/
def runTasks {σ : Type} (E : Env σ) (swallow : Bool) : List Key → St σ → St σ
  | [], s => s
  | K :: Ks, s =>
    match task E K s with
    | some s' => runTasks E swallow Ks s'
    | none => if swallow then runTasks E swallow Ks s else { s with aborted := true }

/-- The loop of lines 61-80, entered with the counter `Count` and the set
`FuncsWithContexts`: the tasks of the round are run, and the loop goes on
while `Count++ < CSRound && NFA->recompute(FuncsWithContexts)`; `recompute`
is not called when the first operand is false.  `Count` is only compared
while it is at most `CSRound`, so the `unsigned` counter never wraps before a
comparison. -/
def doWhile {σ : Type} (E : Env σ) (swallow : Bool) (CSRound : Nat) (Count : Nat)
    (FuncsWithContexts : List Key) (s : St σ) : St σ :=
  let s1 := runTasks E swallow FuncsWithContexts (s.beginRound FuncsWithContexts)
  if s1.aborted then s1
  else if Count < CSRound then
    let r := E.recompute s1.NFA
    if r.2.1 then doWhile E swallow CSRound (Count + 1) (toSet r.2.2) (s1.afterRecompute r)
    else s1.afterRecompute r
  else s1
termination_by CSRound - Count

/-- Lines 83-92: every function with a body whose empty-context slot is
missing or null gets a new analysis, which is run and then stored. -/
def repair {σ : Type} (E : Env σ) : Module → St σ → St σ
  | [], s => s
  | F :: M, s =>
    if !F.empty then
      match s.AMap.find (F.id, []) with
      | some (some _) => repair E M s
      | _ =>
        let LNCA := LocalAnalysis.create s.nextOid F.id []
        let r := E.localRun s.NFA LNCA
        repair E M { s with
          AMap := s.AMap.assign (F.id, [])
            (some { LNCA with runs := LNCA.runs + 1, verdict := r.2 })
          NFA := r.1
          nextOid := s.nextOid + 1
          repaired := s.repaired ++ [F.id] }
    else repair E M s

/-! ## The statistics of `runOnModule` -/

/-- Lines 106-111: the contexts of the entries of `AnalysisMap` whose function
is `F` and whose slot is not null, in the order of the map. -/
def functionContexts (AMap : AnalysisMap) (F : Function) : List Context :=
  AMap.filterMap fun Entry =>
    if Entry.1.1 = F.id ∧ Entry.2.isSome then some Entry.1.2 else none

/-- Lines 123-129: the flag `IsNotNull` after the loop over `FunctionContexts`,
which stops at the first context in which `mayNull` is false. -/
def isNotNull {σ : Type} (E : Env σ) (MaxContextDepth : Nat) (NFA : σ) (AMap : AnalysisMap)
    (Op : Value) (I : Instruction) : List Context → Bool
  | [] => false
  | Ctx :: rest =>
    if !mayNull E MaxContextDepth NFA AMap Op I Ctx then true
    else isNotNull E MaxContextDepth NFA AMap Op I rest

/-- The increment `++` of an `unsigned` counter. -/
def incr (n : Nat) : Nat := (n + 1) % 2 ^ 32

/-- The four counters of lines 95-96 and 102-103. -/
structure Counters where
  TotalPtrInsts : Nat
  NotNullPtrInsts : Nat
  FuncTotalPtrs : Nat
  FuncNotNullPtrs : Nat
deriving DecidableEq, Repr

/-- Lines 117-136: the body of the operand loop for the operand `Op` of `I`. -/
def countOperand {σ : Type} (E : Env σ) (MaxContextDepth : Nat) (NFA : σ) (AMap : AnalysisMap)
    (FunctionContexts : List Context) (I : Instruction) (c : Counters) (Op : Value) :
    Counters :=
  if Op.isPointerTy then
    let c1 := { c with
      TotalPtrInsts := incr c.TotalPtrInsts
      FuncTotalPtrs := incr c.FuncTotalPtrs }
    if isNotNull E MaxContextDepth NFA AMap Op I FunctionContexts then
      { c1 with
        NotNullPtrInsts := incr c1.NotNullPtrInsts
        FuncNotNullPtrs := incr c1.FuncNotNullPtrs }
    else c1
  else c

/-- Lines 113-139: the loops over the basic blocks of `F`, their instructions
and the operands of each instruction. -/
def countBody {σ : Type} (E : Env σ) (MaxContextDepth : Nat) (NFA : σ) (AMap : AnalysisMap)
    (FunctionContexts : List Context) (blocks : List (List Instruction)) (c : Counters) :
    Counters :=
  blocks.foldl (fun c BB =>
    BB.foldl (fun c I =>
      I.operands.foldl (countOperand E MaxContextDepth NFA AMap FunctionContexts I) c) c) c

/-- `FunctionStats[&F] = v` on the `std::map` of line 97. -/
def statsAssign : List (Nat × Nat × Nat) → Nat → Nat × Nat → List (Nat × Nat × Nat)
  | [], F, v => [(F, v)]
  | (F', v') :: m, F, v =>
    if F' = F then (F', v) :: m else (F', v') :: statsAssign m F v

/-- What lines 95-142 compute: the two program-wide counters and the map
`FunctionStats` from a function to `{FuncTotalPtrs, FuncNotNullPtrs}`. -/
structure Stats where
  TotalPtrInsts : Nat
  NotNullPtrInsts : Nat
  FunctionStats : List (Nat × Nat × Nat)
deriving DecidableEq, Repr

/-- Lines 99-142: the loop over the functions of the module. -/
def collect {σ : Type} (E : Env σ) (MaxContextDepth : Nat) (NFA : σ) (AMap : AnalysisMap) :
    Module → Stats → Stats
  | [], st => st
  | F :: M, st =>
    if F.empty then collect E MaxContextDepth NFA AMap M st
    else
      let c := countBody E MaxContextDepth NFA AMap (functionContexts AMap F) F.blocks
        { TotalPtrInsts := st.TotalPtrInsts, NotNullPtrInsts := st.NotNullPtrInsts,
          FuncTotalPtrs := 0, FuncNotNullPtrs := 0 }
      collect E MaxContextDepth NFA AMap M
        { TotalPtrInsts := c.TotalPtrInsts, NotNullPtrInsts := c.NotNullPtrInsts,
          FunctionStats := statsAssign st.FunctionStats F.id (c.FuncTotalPtrs, c.FuncNotNullPtrs) }

/-- The outcome of `runOnModule`: the final state, and the statistics when the
run reached them (`none` when an exception ended the run before). -/
structure Result (σ : Type) where
  st : St σ
  stats : Option Stats

/-- `ContextSensitiveNullCheckAnalysis::runOnModule(M)` on a freshly
constructed pass (the constructor leaves `AnalysisMap` empty), with the
options `CSRound` and `CSMaxContextDepth` and the null flow analysis in state
`NFA`: the seeding of lines 54-59, the loop of lines 61-80 entered with
`Count = 1`, the loop of lines 83-92 and the statistics of lines 95-142.  The
statistics are not reached when an exception has ended the run. -/
def runOnModule {σ : Type} (E : Env σ) (swallow : Bool) (CSRound MaxContextDepth : Nat)
    (M : Module) (NFA : σ) : Result σ :=
  let sd := seed M ([], [])
  let s1 := doWhile E swallow CSRound 1 sd.2 (St.init sd.1 NFA)
  if s1.aborted then { st := s1, stats := none }
  else
    let s2 := repair E M s1
    { st := s2
      stats := some (collect E MaxContextDepth s2.NFA s2.AMap M
        { TotalPtrInsts := 0, NotNullPtrInsts := 0, FunctionStats := [] }) }

/-! ## What the statistics count -/

/-- The pointer-typed operand occurrences among the operands `ops` of the
instruction `I`, each paired with the instruction, in operand order. -/
def occOfOperands (I : Instruction) (ops : List Value) : List (Value × Instruction) :=
  (ops.filter fun Op => Op.isPointerTy).map fun Op => (Op, I)

/-- The pointer-typed operand occurrences of a basic block. -/
def occOfBlock : List Instruction → List (Value × Instruction)
  | [] => []
  | I :: BB => occOfOperands I I.operands ++ occOfBlock BB

/-- The pointer-typed operand occurrences of the basic blocks of a function,
in the order of the loops of lines 113-116. -/
def ptrOccurrences : List (List Instruction) → List (Value × Instruction)
  | [] => []
  | BB :: blocks => occOfBlock BB ++ ptrOccurrences blocks

/-- The pointer-typed operand occurrences of the functions of the module that
have a body, each with its function, in the order of the loop of line 99. -/
def moduleOccurrences : Module → List (Function × Value × Instruction)
  | [] => []
  | F :: M =>
    (if F.empty then [] else (ptrOccurrences F.blocks).map fun o => (F, o)) ++
      moduleOccurrences M

/-- The flag `IsNotNull` that the statistics compute, in the state `s`, for the
occurrence `o` (an operand and its instruction) of the function `F`. -/
def countedNotNull {σ : Type} (E : Env σ) (MaxContextDepth : Nat) (s : St σ) (F : Function)
    (o : Value × Instruction) : Bool :=
  isNotNull E MaxContextDepth s.NFA s.AMap o.1 o.2 (functionContexts s.AMap F)

/-- The counters after `a` increments of the two totals and `b` increments of
the two NOT_NULL counters. -/
def Counters.bump (c : Counters) (a b : Nat) : Counters :=
  { TotalPtrInsts := incr^[a] c.TotalPtrInsts
    NotNullPtrInsts := incr^[b] c.NotNullPtrInsts
    FuncTotalPtrs := incr^[a] c.FuncTotalPtrs
    FuncNotNullPtrs := incr^[b] c.FuncNotNullPtrs }

/-! ## Concrete inputs -/

/-- A call site named `call_f`. -/
def csA : CallSite := { id := 1, name := some "call_f" }

/-- A call site named `call_g`. -/
def csB : CallSite := { id := 2, name := some "call_g" }

/-- A call site without a name. -/
def csC : CallSite := { id := 3, name := none }

/-- A pointer operand. -/
def ptrP : Value := { id := 10, isPointerTy := true }

/-- A second pointer operand. -/
def ptrQ : Value := { id := 11, isPointerTy := true }

/-- An integer operand. -/
def intN : Value := { id := 12, isPointerTy := false }

/-- An instruction of function 0 with operands `ptrP`, `intN`, `ptrQ`. -/
def instI : Instruction := { id := 20, getFunction := 0, operands := [ptrP, intN, ptrQ] }

/-- A completed local analysis of function 0 in the empty context that
reports NOT_NULL for `ptrP` and MAY_NULL for everything else. -/
def lncaEmpty : LocalAnalysis :=
  { oid := 0, fn := 0, ctx := [], runs := 1, verdict := fun Ptr _ => decide (Ptr.id ≠ 10) }

/-- A completed local analysis of function 0 in the context `[csB]` that
reports MAY_NULL for `ptrP` and NOT_NULL for everything else. -/
def lncaB : LocalAnalysis :=
  { oid := 1, fn := 0, ctx := [csB], runs := 1, verdict := fun Ptr _ => decide (Ptr.id = 10) }

/-- An environment over the oracle state `Nat` (the number of propagation
steps done): nothing is ever proved NOT_NULL by the oracle, `recompute`
reports a change and no dirty key, and a run of a local analysis reports
NOT_NULL for `ptrP` only. -/
def envQuiet : Env Nat :=
  { notNull := fun _ _ _ => false
    recompute := fun n => (n + 1, true, [])
    localRun := fun n _ => (n, fun Ptr _ => decide (Ptr.id ≠ 10)) }

/-- An environment whose oracle proves `ptrP` NOT_NULL in every context. -/
def envProves : Env Nat :=
  { notNull := fun _ Ptr _ => decide (Ptr.id = 10)
    recompute := fun n => (n + 1, false, [])
    localRun := fun n _ => (n, fun _ _ => true) }

/-- A function with a body: one basic block holding `instI`. -/
def fnF : Function := { id := 0, name := "f", blocks := [[instI]] }

/-- A declaration: a function without a basic block. -/
def fnDecl : Function := { id := 1, name := "ext", blocks := [] }

/-- An environment whose `recompute` always reports a change and emits the key
of function 0 in the context `[csA]`. -/
def envDirty : Env Nat :=
  { notNull := fun _ _ _ => false
    recompute := fun n => (n + 1, true, [(0, [csA])])
    localRun := fun n _ => (n, fun Ptr _ => decide (Ptr.id ≠ 10)) }

/-! ## Predicates on the analysis map -/

/-- Every analysis held by the map has been run. -/
def AllCompleted (m : AnalysisMap) : Prop :=
  ∀ e ∈ m, ∀ a : LocalAnalysis, e.2 = some a → a.completed

/-- The map holds a completed analysis under the key `K`. -/
def HasCompleted (m : AnalysisMap) (K : Key) : Prop :=
  ∃ a : LocalAnalysis, m.find K = some (some a) ∧ a.completed

/-! ## The display string of a context -/

/-- Lines 271-275: the text added for the call site `Ctx[i]`, its name when
`hasName()` and the literal placeholder otherwise. -/
def renderCallSite (cs : CallSite) : String :=
  match cs.name with
  | some n => n
  | none => "<unnamed call>"

/-- The loop of lines 269-276 from the index `i` on: `rest` are the call
sites `Ctx[i], Ctx[i+1], ...` and `Result` is the string built so far. -/
def getContextStringLoop : Nat → List CallSite → String → String
  | _, [], Result => Result
  | i, cs :: rest, Result =>
    getContextStringLoop (i + 1) rest
      ((if i > 0 then Result ++ ", " else Result) ++ renderCallSite cs)

/-- `ContextSensitiveNullCheckAnalysis::getContextString(Ctx)`. -/
def getContextString (Ctx : Context) : String :=
  getContextStringLoop 0 Ctx "[" ++ "]"

/-- The rendering as the specification words it: an opening bracket, the call
sites in order, each as its name or as the placeholder when it has none,
joined by a comma and a blank, and a closing bracket. -/
def displayString (Ctx : Context) : String :=
  "[" ++ ", ".intercalate (Ctx.map fun cs => cs.name.getD "<unnamed call>") ++ "]"

/-! ## The pointer analysis factory (`lib/Alias/PointerAnalysisInterface.cpp`) -/

/-- The implementations of `PointerAnalysisResult` that the factory builds:
`AndersenPointerAnalysisResult`, `CFLAnderPointerAnalysisResult`,
`CFLSteensPointerAnalysisResult` and `BasicAAPointerAnalysisResult`. -/
inductive PointerAnalysisKind where
  | Andersen
  | CFLAnder
  | CFLSteens
  | BasicAA
deriving DecidableEq, Repr

/-- The object `std::make_unique<X>(M)`: its class and the module it was built
for. -/
structure PointerAnalysisResult where
  kind : PointerAnalysisKind
  module : Module
deriving DecidableEq, Repr

/-- What a call of `create` yields: the `std::unique_ptr` it returns (`none`
for a null pointer) and whether the warning of lines 173-174 was written. -/
structure Created where
  ptr : Option PointerAnalysisResult
  warned : Bool
deriving DecidableEq, Repr

/-- `PointerAnalysisFactory::create(M, Type)`, lines 160-176. -/
def PointerAnalysisFactory.create (M : Module) (AnalysisType : String) : Created :=
  if AnalysisType = "andersen" then
    { ptr := some { kind := .Andersen, module := M }, warned := false }
  else if AnalysisType = "cfl-anders" then
    { ptr := some { kind := .CFLAnder, module := M }, warned := false }
  else if AnalysisType = "cfl-steens" then
    { ptr := some { kind := .CFLSteens, module := M }, warned := false }
  else if AnalysisType = "basic" then
    { ptr := some { kind := .BasicAA, module := M }, warned := false }
  else
    { ptr := some { kind := .Andersen, module := M }, warned := true }

/-! ## The query `mayNull` as an operation on the pass -/

/-- `AnalysisMap.find(K)` as an operation on the member: the slot it finds
(`none` for `end()`) and the map after the call; `find` inserts nothing. -/
def AnalysisMap.findOp (m : AnalysisMap) (K : Key) :
    Option (Option LocalAnalysis) × AnalysisMap :=
  (m.find K, m)

/-- What a call of `mayNull` leaves behind: its result, the member
`AnalysisMap` after the call, the contexts it handed to `NFA->notNull` and the
keys it handed to `AnalysisMap.find`, in the order of the calls. -/
structure Query where
  result : Bool
  AMap : AnalysisMap
  queried : List Context
  lookedUp : List Key

/-- `ContextSensitiveNullCheckAnalysis::mayNull(Ptr, Inst, Ctx)`, lines
237-265, statement by statement, with the member `AnalysisMap` threaded
through the calls that take it. -/
def mayNullOp {σ : Type} (E : Env σ) (MaxContextDepth : Nat) (NFA : σ) (AMap : AnalysisMap)
    (Ptr : Value) (Inst : Instruction) (Ctx : Context) : Query :=
  let LimitedCtx := limitContext MaxContextDepth Ctx
  if E.notNull NFA Ptr LimitedCtx then
    { result := false, AMap := AMap, queried := [LimitedCtx], lookedUp := [] }
  else
    let It := AMap.findOp (Inst.getFunction, LimitedCtx)
    match It.1 with
    | some (some LNCA) =>
      { result := LNCA.mayNull Ptr Inst, AMap := It.2, queried := [LimitedCtx],
        lookedUp := [(Inst.getFunction, LimitedCtx)] }
    | _ =>
      let EmptyIt := It.2.findOp (Inst.getFunction, [])
      match EmptyIt.1 with
      | some (some LNCA) =>
        { result := LNCA.mayNull Ptr Inst, AMap := EmptyIt.2, queried := [LimitedCtx],
          lookedUp := [(Inst.getFunction, LimitedCtx), (Inst.getFunction, [])] }
      | _ =>
        { result := true, AMap := EmptyIt.2, queried := [LimitedCtx],
          lookedUp := [(Inst.getFunction, LimitedCtx), (Inst.getFunction, [])] }

/-! ## The steps of a run -/

/-- Lines 87-89 for the function `F`: a new analysis for the empty context is
created, run and stored under `{&F, EmptyContext}`. -/
def repairOne {σ : Type} (E : Env σ) (F : Function) (s : St σ) : St σ :=
  { s with
    AMap := s.AMap.assign (F.id, [])
      (some { LocalAnalysis.create s.nextOid F.id [] with
        runs := (LocalAnalysis.create s.nextOid F.id []).runs + 1
        verdict := (E.localRun s.NFA (LocalAnalysis.create s.nextOid F.id [])).2 })
    NFA := (E.localRun s.NFA (LocalAnalysis.create s.nextOid F.id [])).1
    nextOid := s.nextOid + 1
    repaired := s.repaired ++ [F.id] }

/-- One step of `runOnModule` after the seeding of lines 54-59: a task that
finishes, a task whose exception ends the run, the entry into a round, a call
of `recompute`, or one creation by the loop of lines 83-92 (for a function of
the module with a body whose empty-context slot is missing or null). -/
inductive Step {σ : Type} (E : Env σ) (M : Module) : St σ → St σ → Prop where
  | task (K : Key) (s s' : St σ) (h : task E K s = some s') : Step E M s s'
  | thrown (s : St σ) : Step E M s { s with aborted := true }
  | beginRound (s : St σ) (Ks : List Key) : Step E M s (s.beginRound Ks)
  | afterRecompute (s : St σ) : Step E M s (s.afterRecompute (E.recompute s.NFA))
  | repairOne (F : Function) (s : St σ) (hF : F ∈ M) (hB : F.empty = false)
      (h : ∀ a : LocalAnalysis, s.AMap.find (F.id, []) ≠ some (some a)) :
      Step E M s (repairOne E F s)

/-- The states a run can pass through from the state `s` on: any number of
steps. -/
def Steps {σ : Type} (E : Env σ) (M : Module) (s s' : St σ) : Prop :=
  Relation.ReflTransGen (Step E M) s s'

/-- The key set of the map is exactly the set of the pairs of a function of
the module with a body and the empty context. -/
def KeysExact (M : Module) (m : AnalysisMap) : Prop :=
  ∀ K : Key, (m.find K).isSome = true ↔ ∃ F ∈ M, F.empty = false ∧ K = (F.id, [])

/-- The keys handed to `AnalysisMap.at` by the tasks of a run (line 71): a
task is enqueued for every key of every round and looks its key up as it is. -/
def atKeys {σ : Type} (s : St σ) : List Key :=
  s.rounds.flatten

/-- Every analysis of the map was constructed for the function and the context
of the key it is stored under. -/
def BuiltForKey (m : AnalysisMap) : Prop :=
  ∀ (K : Key) (a : LocalAnalysis), m.find K = some (some a) → a.fn = K.1 ∧ a.ctx = K.2

/-- An environment whose `recompute` always reports a change and emits the
empty-context key of function 0 again. -/
def envAgain : Env Nat :=
  { notNull := fun _ _ _ => false
    recompute := fun n => (n + 1, true, [(0, [])])
    localRun := fun n _ => (n, fun Ptr _ => decide (Ptr.id ≠ 10)) }

/-- The number of calls of `run()` on the analysis the map holds under `K`
(zero when the key is missing or its slot is null). -/
def runsAt (m : AnalysisMap) (K : Key) : Nat :=
  match m.find K with
  | some (some a) => a.runs
  | _ => 0

/-! ## The report of the statistics -/

/-- What is printed after `Percentage of NOT_NULL pointers:` or in a
per-function line: the literal `0` of the conditional expression of line 148,
or the quotient `NotNull * 100.0 / Total`, of which the two operands are kept
(the floating-point division is not evaluated here). -/
inductive Percentage where
  | zero
  | quotient (notNull total : Nat)
deriving DecidableEq, Repr

/-- Lines 147-148: the percentage of the whole program. -/
def programPercentage (st : Stats) : Percentage :=
  if st.TotalPtrInsts > 0 then .quotient st.NotNullPtrInsts st.TotalPtrInsts else .zero

/-- Lines 151-164: the per-function lines, printed when `CSPrintPerFunction`
is set, one for each entry of `FunctionStats` whose `FuncTotal` is positive:
the function, `FuncNotNull`, `FuncTotal` and the percentage. -/
def perFunctionLines (CSPrintPerFunction : Bool) (st : Stats) :
    List (Nat × Nat × Nat × Percentage) :=
  if CSPrintPerFunction then
    st.FunctionStats.filterMap fun Stat =>
      if Stat.2.1 > 0 then some (Stat.1, Stat.2.2, Stat.2.1, .quotient Stat.2.2 Stat.2.1)
      else none
  else []

/-- A function with a body and no pointer-typed operand. -/
def fnInt : Function :=
  { id := 2, name := "g", blocks := [[{ id := 21, getFunction := 2, operands := [intN] }]] }

/-! ## The verbose dump of `runOnModule` -/

/-- A line of lines 213-215 of the verbose dump: the function and the context
of the entry being printed, the operand, the instruction, and the flag
`MayBeNull` (`MAY_NULL` is printed when it is true, `NOT_NULL` otherwise). -/
structure DumpLine where
  fn : Nat
  ctx : Context
  Op : Value
  I : Instruction
  MayBeNull : Bool

/-- Lines 194-225 for one entry of `AnalysisMap` while the function `F` is
being printed: nothing for an entry of another function or with a null
analysis; otherwise one line for every pointer-typed operand of every
instruction of every basic block of `F`, with the verdict
`LNCA->mayNull(Op, &I)` of the analysis of the entry. -/
def dumpEntry (F : Function) (Entry : Key × Option LocalAnalysis) : List DumpLine :=
  if Entry.1.1 = F.id then
    match Entry.2 with
    | none => []
    | some LNCA =>
      F.blocks.flatMap fun BB =>
        BB.flatMap fun I =>
          I.operands.filterMap fun Op =>
            if Op.isPointerTy then
              some { fn := F.id, ctx := Entry.1.2, Op := Op, I := I,
                     MayBeNull := LNCA.mayNull Op I }
            else none
  else []

/-- Lines 168 and 187-230: the verdict lines of the verbose dump, printed when
`CSVerbose` is set, for every function with a body and every entry of the
map, in the order of the loops. -/
def verboseDump (CSVerbose : Bool) (AMap : AnalysisMap) (M : Module) : List DumpLine :=
  if CSVerbose then
    M.flatMap fun F => if F.empty then [] else AMap.flatMap (dumpEntry F)
  else []

/-- No key occurs twice in the map. -/
def NodupKeys (m : AnalysisMap) : Prop :=
  (m.map Prod.fst).Nodup

/-! ## The contract of `recompute` -/

/-- Modelled from the spec: `ContextSensitiveNullFlowAnalysis::recompute` is not
among the sources.  The specification gives it the result `changed` and has
it append to the set it is handed every (function, context) whose local facts
changed: it reports a change exactly when it emits a key. -/
def RecomputeContract {σ : Type} (E : Env σ) : Prop :=
  ∀ NFA : σ, (E.recompute NFA).2.1 = true ↔ (E.recompute NFA).2.2 ≠ []

theorem find_nil (K : Key) : AnalysisMap.find [] K = none := rfl

theorem find_cons (K K' : Key) (v : Option LocalAnalysis) (m : AnalysisMap) :
    AnalysisMap.find ((K', v) :: m) K = if K = K' then some v else AnalysisMap.find m K := by
  unfold AnalysisMap.find
  by_cases h : K = K'
  · subst h; simp [List.lookup]
  · have : (K == K') = false := by simpa using h
    simp [List.lookup, this, h]

theorem find_assign_self (m : AnalysisMap) (K : Key) (v : Option LocalAnalysis) :
    (m.assign K v).find K = some v := by
  induction m with
  | nil => simp [AnalysisMap.assign, find_cons]
  | cons e m ih =>
    obtain ⟨K', v'⟩ := e
    by_cases h : K' = K
    · simp [AnalysisMap.assign, h, find_cons]
    · have h' : ¬ K = K' := fun e => h e.symm
      simp [AnalysisMap.assign, h, find_cons, h', ih]

theorem find_assign_ne (m : AnalysisMap) (K K₀ : Key) (v : Option LocalAnalysis)
    (hne : K₀ ≠ K) : (m.assign K v).find K₀ = m.find K₀ := by
  induction m with
  | nil => simp [AnalysisMap.assign, find_cons, find_nil, hne]
  | cons e m ih =>
    obtain ⟨K', v'⟩ := e
    by_cases h : K' = K
    · subst h; simp [AnalysisMap.assign, find_cons, hne]
    · simp [AnalysisMap.assign, h, find_cons, ih]

theorem limitContext_eq_drop (k : Nat) (c : Context) :
    limitContext k c = c.drop (c.length - k) := by
  unfold limitContext
  split
  · rfl
  · have : c.length - k = 0 := by omega
    simp [this]

/-! ## The query `mayNull`: theorems -/

/-- C1: when the oracle proves `notNull` at the truncated context the query
answers NOT_NULL (false) whatever the analysis map holds; otherwise, when the
map holds an analysis under the function of the instruction and the truncated
context, the query answers exactly that analysis's verdict, also after the
empty-context slot has been given any other content. -/
theorem mayNull_oracle_then_context {σ : Type} (E : Env σ) (k : Nat) (NFA : σ)
    (AMap : AnalysisMap) (p : Value) (i : Instruction) (c : Context) :
    (E.notNull NFA p (limitContext k c) = true → mayNull E k NFA AMap p i c = false) ∧
    (∀ LNCA : LocalAnalysis, E.notNull NFA p (limitContext k c) = false →
      AMap.find (i.getFunction, limitContext k c) = some (some LNCA) →
      mayNull E k NFA AMap p i c = LNCA.mayNull p i ∧
      (limitContext k c ≠ [] → ∀ v : Option LocalAnalysis,
        mayNull E k NFA (AMap.assign (i.getFunction, []) v) p i c = LNCA.mayNull p i)) := by
  refine ⟨fun h => ?_, fun LNCA hO hF => ⟨?_, fun hne v => ?_⟩⟩
  · simp [mayNull, h]
  · simp [mayNull, hO, hF]
  · have hk : ((i.getFunction, limitContext k c) : Key) ≠ (i.getFunction, []) := by
      intro e; exact hne (Prod.mk.inj e).2
    simp [mayNull, hO, find_assign_ne _ _ _ v hk, hF]

/-- The theorem of C1 at a concrete query: the map holds `lncaB` under
`(0, [csB])` and `lncaEmpty` under `(0, [])`; the query at `[csA, csB]` with
depth 1 answers the verdict of `lncaB` (MAY_NULL), and the oracle of
`envProves` makes the same query NOT_NULL. -/
theorem mayNull_oracle_then_context_witness :
    mayNull envProves 1 0 [((0, [csB]), some lncaB), ((0, []), some lncaEmpty)]
        ptrP instI [csA, csB] = false ∧
    mayNull envQuiet 1 0 [((0, [csB]), some lncaB), ((0, []), some lncaEmpty)]
        ptrP instI [csA, csB] = true :=
  ⟨(mayNull_oracle_then_context envProves 1 0 _ ptrP instI [csA, csB]).1 (by decide),
   ((mayNull_oracle_then_context envQuiet 1 0
      [((0, [csB]), some lncaB), ((0, []), some lncaEmpty)] ptrP instI [csA, csB]).2
      lncaB rfl rfl).1⟩

/-- C2: when the oracle does not prove `notNull` at the truncated context, the
map holds no analysis under the truncated context (the key is absent or its
slot is null) and holds one under the empty context, the query answers the
verdict of the empty-context analysis; so NOT_NULL there gives NOT_NULL. -/
theorem mayNull_falls_back_to_empty_context {σ : Type} (E : Env σ) (k : Nat) (NFA : σ)
    (AMap : AnalysisMap) (p : Value) (i : Instruction) (c : Context) (LNCA : LocalAnalysis)
    (hO : E.notNull NFA p (limitContext k c) = false)
    (hNo : AMap.find (i.getFunction, limitContext k c) = none ∨
      AMap.find (i.getFunction, limitContext k c) = some none)
    (hE : AMap.find (i.getFunction, []) = some (some LNCA)) :
    mayNull E k NFA AMap p i c = LNCA.mayNull p i ∧
    (LNCA.mayNull p i = false → mayNull E k NFA AMap p i c = false) := by
  have h : mayNull E k NFA AMap p i c = LNCA.mayNull p i := by
    rcases hNo with hNo | hNo <;> simp [mayNull, hO, hNo, hE]
  exact ⟨h, fun hv => h.trans hv⟩

/-- The theorem of C2 at a concrete query: no entry under `(0, [csA])`, and
the empty-context analysis `lncaEmpty` reports NOT_NULL for `ptrP`. -/
theorem mayNull_falls_back_to_empty_context_witness :
    mayNull envQuiet 3 0 [((0, []), some lncaEmpty)] ptrP instI [csA] = false :=
  (mayNull_falls_back_to_empty_context envQuiet 3 0 [((0, []), some lncaEmpty)] ptrP instI
    [csA] lncaEmpty rfl (Or.inl rfl) rfl).2 rfl

/-- C3: when the oracle does not prove `notNull` at the truncated context and
neither the truncated context nor the empty context has an analysis in the
map (key absent, or slot null), the query returns MAY_NULL (true); it is a
total function and a missing entry is no failure. -/
theorem mayNull_conservative_default {σ : Type} (E : Env σ) (k : Nat) (NFA : σ)
    (AMap : AnalysisMap) (p : Value) (i : Instruction) (c : Context)
    (hO : E.notNull NFA p (limitContext k c) = false)
    (hNo : AMap.find (i.getFunction, limitContext k c) = none ∨
      AMap.find (i.getFunction, limitContext k c) = some none)
    (hE : AMap.find (i.getFunction, []) = none ∨ AMap.find (i.getFunction, []) = some none) :
    mayNull E k NFA AMap p i c = true := by
  rcases hNo with hNo | hNo <;> rcases hE with hE | hE <;> simp [mayNull, hO, hNo, hE]

/-- The theorem of C3 at a concrete query: the map has a null slot under the
empty context of function 0 and nothing under `[csA]`. -/
theorem mayNull_conservative_default_witness :
    mayNull envQuiet 3 0 [((0, []), none)] ptrP instI [csA] = true :=
  mayNull_conservative_default envQuiet 3 0 [((0, []), none)] ptrP instI [csA] rfl
    (Or.inl rfl) (Or.inr rfl)

/-- C4: the truncation at the start of `mayNull` yields the suffix of the
context of length `min k (length c)`: a context longer than `k` becomes its
last `k` elements in their order, a context of length at most `k` is
unchanged. -/
theorem limitContext_is_suffix (k : Nat) (c : Context) :
    limitContext k c <:+ c ∧
    (limitContext k c).length = min k c.length ∧
    (k < c.length → (limitContext k c).length = k ∧
      limitContext k c = c.drop (c.length - k) ∧
      ∀ j, j < k → (limitContext k c).get? j = c.get? (c.length - k + j)) ∧
    (c.length ≤ k → limitContext k c = c) := by
  rw [limitContext_eq_drop]
  refine ⟨List.drop_suffix _ _, ?_, fun h => ⟨?_, rfl, fun j _ => ?_⟩, fun h => ?_⟩
  · simp only [List.length_drop]; omega
  · simp only [List.length_drop]; omega
  · simp [List.get?_eq_getElem?, List.getElem?_drop]
  · have : c.length - k = 0 := by omega
    simp [this]

/-- C5: the query depends on the context only through its last `k` elements:
two contexts with the same last-`k` suffix get the same answer from the same
oracle state and map, and with `k = 0` every context gets the answer of the
empty context. -/
theorem mayNull_same_suffix {σ : Type} (E : Env σ) (NFA : σ) (AMap : AnalysisMap)
    (p : Value) (i : Instruction) :
    (∀ (k : Nat) (c1 c2 : Context), c1.drop (c1.length - k) = c2.drop (c2.length - k) →
      mayNull E k NFA AMap p i c1 = mayNull E k NFA AMap p i c2) ∧
    (∀ c : Context, mayNull E 0 NFA AMap p i c = mayNull E 0 NFA AMap p i []) := by
  refine ⟨fun k c1 c2 h => ?_, fun c => ?_⟩
  · have h' : limitContext k c1 = limitContext k c2 := by
      rw [limitContext_eq_drop, limitContext_eq_drop, h]
    simp only [mayNull, h']
  · have h' : limitContext 0 c = limitContext 0 [] := by
      rw [limitContext_eq_drop, limitContext_eq_drop]; simp
    simp only [mayNull, h']

/-- The theorem of C5 at concrete contexts: two call strings of length 5 that
share their last two call sites get the same answer with depth 2. -/
theorem mayNull_same_suffix_witness :
    mayNull envQuiet 2 0 [((0, [csA, csB]), some lncaB)] ptrP instI
        [csA, csA, csC, csA, csB] =
      mayNull envQuiet 2 0 [((0, [csA, csB]), some lncaB)] ptrP instI
        [csC, csB, csB, csA, csB] :=
  (mayNull_same_suffix envQuiet 0 [((0, [csA, csB]), some lncaB)] ptrP instI).1 2
    [csA, csA, csC, csA, csB] [csC, csB, csB, csA, csB] rfl

/-! ## Lemmas on the driver -/

theorem mem_assign (m : AnalysisMap) (K : Key) (v : Option LocalAnalysis)
    (e : Key × Option LocalAnalysis) (he : e ∈ m.assign K v) : e ∈ m ∨ e = (K, v) := by
  induction m with
  | nil => simpa [AnalysisMap.assign] using he
  | cons e' m ih =>
    obtain ⟨K', v'⟩ := e'
    by_cases h : K' = K
    · subst h
      simp only [AnalysisMap.assign, if_true, List.mem_cons] at he
      rcases he with he | he
      · exact Or.inr he
      · exact Or.inl (List.mem_cons_of_mem _ he)
    · simp only [AnalysisMap.assign, h, if_false, List.mem_cons] at he
      rcases he with he | he
      · exact Or.inl (he ▸ List.mem_cons_self _ _)
      · rcases ih he with h1 | h1
        · exact Or.inl (List.mem_cons_of_mem _ h1)
        · exact Or.inr h1

theorem find_mem (m : AnalysisMap) (K : Key) (v : Option LocalAnalysis)
    (h : m.find K = some v) : (K, v) ∈ m := by
  induction m with
  | nil => simp [find_nil] at h
  | cons e m ih =>
    obtain ⟨K', v'⟩ := e
    rw [find_cons] at h
    by_cases hk : K = K'
    · subst hk
      simp only [if_true, Option.some.injEq] at h
      subst h
      exact List.mem_cons_self _ _
    · simp only [hk, if_false] at h
      exact List.mem_cons_of_mem _ (ih h)

theorem allCompleted_assign (m : AnalysisMap) (K : Key) (v : Option LocalAnalysis)
    (hm : AllCompleted m) (hv : ∀ a, v = some a → a.completed) :
    AllCompleted (m.assign K v) := by
  intro e he a ha
  rcases mem_assign m K v e he with h | h
  · exact hm e h a ha
  · subst h; exact hv a ha

theorem task_AMap {σ : Type} (E : Env σ) (K : Key) (s s' : St σ) (h : task E K s = some s') :
    ∃ a : LocalAnalysis, a.completed ∧ s'.AMap = s.AMap.assign K (some a) ∧
      s'.aborted = s.aborted ∧ s'.rounds = s.rounds ∧ s'.evals = s.evals ∧
      s'.repaired = s.repaired := by
  unfold task at h
  split at h
  · exact absurd h (by simp)
  · rename_i slot hslot
    simp only [Option.some.injEq] at h
    subst h
    exact ⟨_, by simp [LocalAnalysis.completed], rfl, rfl, rfl, rfl, rfl⟩

theorem task_isSome_iff {σ : Type} (E : Env σ) (K : Key) (s : St σ) :
    (task E K s).isSome = (s.AMap.find K).isSome := by
  unfold task
  split <;> simp_all

theorem runTasks_frame {σ : Type} (E : Env σ) (swallow : Bool) (Ks : List Key) (s : St σ) :
    (runTasks E swallow Ks s).rounds = s.rounds ∧
    (runTasks E swallow Ks s).evals = s.evals ∧
    (runTasks E swallow Ks s).repaired = s.repaired := by
  induction Ks generalizing s with
  | nil => exact ⟨rfl, rfl, rfl⟩
  | cons K Ks ih =>
    unfold runTasks
    split
    · rename_i s' h
      obtain ⟨a, _, _, _, h1, h2, h3⟩ := task_AMap E K s s' h
      rw [(ih s').1, (ih s').2.1, (ih s').2.2, h1, h2, h3]
      exact ⟨rfl, rfl, rfl⟩
    · split
      · exact ih s
      · exact ⟨rfl, rfl, rfl⟩

theorem runTasks_allCompleted {σ : Type} (E : Env σ) (swallow : Bool) (Ks : List Key)
    (s : St σ) (hs : AllCompleted s.AMap) : AllCompleted (runTasks E swallow Ks s).AMap := by
  induction Ks generalizing s with
  | nil => exact hs
  | cons K Ks ih =>
    unfold runTasks
    split
    · rename_i s' h
      obtain ⟨a, ha, hm, _⟩ := task_AMap E K s s' h
      apply ih
      rw [hm]
      exact allCompleted_assign _ _ _ hs (fun b hb => by cases hb; exact ha)
    · split
      · exact ih s hs
      · exact hs

theorem runTasks_swallow {σ : Type} (E : Env σ) (Ks : List Key) (s : St σ) :
    (runTasks E true Ks s).aborted = s.aborted := by
  induction Ks generalizing s with
  | nil => rfl
  | cons K Ks ih =>
    unfold runTasks
    split
    · rename_i s' h
      obtain ⟨a, _, _, hab, _⟩ := task_AMap E K s s' h
      rw [ih s', hab]
    · simpa using ih s

/-- A property of the state that every round of tasks and every call of
`recompute` preserves holds when the loop ends. -/
theorem doWhile_invariant {σ : Type} (E : Env σ) (swallow : Bool) (CSRound : Nat)
    (P : St σ → Prop)
    (hround : ∀ (s : St σ) (Ks : List Key), P s → P (runTasks E swallow Ks (s.beginRound Ks)))
    (heval : ∀ s : St σ, P s → P (s.afterRecompute (E.recompute s.NFA))) :
    ∀ (n Count : Nat) (Ks : List Key) (s : St σ), CSRound - Count = n → P s →
      P (doWhile E swallow CSRound Count Ks s) := by
  intro n
  induction n with
  | zero =>
    intro Count Ks s hn hs
    rw [doWhile]
    have hlt : ¬ Count < CSRound := by omega
    simp only [hlt, if_false]
    split
    · exact hround s Ks hs
    · exact hround s Ks hs
  | succ n ih =>
    intro Count Ks s hn hs
    rw [doWhile]
    have hlt : Count < CSRound := by omega
    simp only [hlt, if_true]
    split
    · exact hround s Ks hs
    · split
      · exact ih (Count + 1) _ _ (by omega) (heval _ (hround s Ks hs))
      · exact heval _ (hround s Ks hs)

theorem hasCompleted_assign (m : AnalysisMap) (K K' : Key) (a : LocalAnalysis)
    (ha : a.completed) (h : HasCompleted m K ∨ K = K') :
    HasCompleted (m.assign K' (some a)) K := by
  by_cases hk : K = K'
  · subst hk; exact ⟨a, find_assign_self _ _ _, ha⟩
  · rcases h with ⟨b, hb, hb'⟩ | h
    · exact ⟨b, by rw [find_assign_ne _ _ _ _ hk]; exact hb, hb'⟩
    · exact absurd h hk

theorem isSome_find_assign (m : AnalysisMap) (K K' : Key) (v : Option LocalAnalysis)
    (h : (m.find K).isSome ∨ K = K') : ((m.assign K' v).find K).isSome := by
  by_cases hk : K = K'
  · subst hk; simp [find_assign_self]
  · rw [find_assign_ne _ _ _ _ hk]
    rcases h with h | h
    · exact h
    · exact absurd h hk

theorem mem_setInsert (S : List Key) (K K' : Key) :
    K ∈ setInsert S K' ↔ K ∈ S ∨ K = K' := by
  unfold setInsert
  split
  · rename_i h
    constructor
    · exact Or.inl
    · rintro (h1 | h1)
      · exact h1
      · subst h1; exact h
  · simp

theorem seed_mono (M : Module) (A : AnalysisMap) (S : List Key) (K : Key) :
    (K ∈ S → K ∈ (seed M (A, S)).2) ∧
    ((A.find K).isSome → ((seed M (A, S)).1.find K).isSome) := by
  induction M generalizing A S with
  | nil => exact ⟨id, id⟩
  | cons F M ih =>
    unfold seed
    split
    · exact ⟨fun h => (ih _ _).1 ((mem_setInsert _ _ _).2 (Or.inl h)),
        fun h => (ih _ _).2 (isSome_find_assign _ _ _ _ (Or.inl h))⟩
    · exact ih _ _

theorem seed_covers (M : Module) (A : AnalysisMap) (S : List Key) (F : Function)
    (hF : F ∈ M) (hB : F.empty = false) :
    (F.id, []) ∈ (seed M (A, S)).2 ∧ ((seed M (A, S)).1.find (F.id, [])).isSome := by
  induction M generalizing A S with
  | nil => cases hF
  | cons G M ih =>
    rcases List.mem_cons.1 hF with h | h
    · subst h
      unfold seed
      simp only [hB, Bool.not_false, if_true]
      exact ⟨(seed_mono M _ _ _).1 ((mem_setInsert _ _ _).2 (Or.inr rfl)),
        (seed_mono M _ _ _).2 (isSome_find_assign _ _ _ _ (Or.inr rfl))⟩
    · unfold seed
      split
      · exact ih _ _ h
      · exact ih _ _ h

theorem seed_slots (M : Module) (A : AnalysisMap) (S : List Key)
    (h : ∀ K ∈ S, (A.find K).isSome) :
    ∀ K ∈ (seed M (A, S)).2, ((seed M (A, S)).1.find K).isSome := by
  induction M generalizing A S with
  | nil => exact h
  | cons F M ih =>
    unfold seed
    split
    · apply ih
      intro K hK
      rcases (mem_setInsert _ _ _).1 hK with h1 | h1
      · exact isSome_find_assign _ _ _ _ (Or.inl (h K h1))
      · exact isSome_find_assign _ _ _ _ (Or.inr h1)
    · exact ih _ _ h

theorem seed_allCompleted (M : Module) (A : AnalysisMap) (S : List Key)
    (h : AllCompleted A) : AllCompleted (seed M (A, S)).1 := by
  induction M generalizing A S with
  | nil => exact h
  | cons F M ih =>
    unfold seed
    split
    · exact ih _ _ (allCompleted_assign _ _ _ h (fun a ha => by cases ha))
    · exact ih _ _ h

theorem task_hasCompleted {σ : Type} (E : Env σ) (K K₀ : Key) (s s' : St σ)
    (h : task E K s = some s') (h0 : HasCompleted s.AMap K₀ ∨ K₀ = K) :
    HasCompleted s'.AMap K₀ := by
  obtain ⟨a, ha, hm, _⟩ := task_AMap E K s s' h
  rw [hm]
  exact hasCompleted_assign _ _ _ a ha h0

theorem task_slots {σ : Type} (E : Env σ) (K K₀ : Key) (s s' : St σ)
    (h : task E K s = some s') (h0 : (s.AMap.find K₀).isSome) :
    (s'.AMap.find K₀).isSome := by
  obtain ⟨a, ha, hm, _⟩ := task_AMap E K s s' h
  rw [hm]
  exact isSome_find_assign _ _ _ _ (Or.inl h0)

theorem runTasks_hasCompleted {σ : Type} (E : Env σ) (swallow : Bool) (Ks : List Key)
    (s : St σ) (K₀ : Key) (h0 : HasCompleted s.AMap K₀) :
    HasCompleted (runTasks E swallow Ks s).AMap K₀ := by
  induction Ks generalizing s with
  | nil => exact h0
  | cons K Ks ih =>
    unfold runTasks
    split
    · rename_i s' h
      exact ih s' (task_hasCompleted E K K₀ s s' h (Or.inl h0))
    · split
      · exact ih s h0
      · exact h0

/-- A round whose keys all have a slot: no task throws and every key of the
round holds a completed analysis when the round is over. -/
theorem runTasks_slots {σ : Type} (E : Env σ) (swallow : Bool) (Ks : List Key) (s : St σ)
    (h : ∀ K ∈ Ks, (s.AMap.find K).isSome) :
    (runTasks E swallow Ks s).aborted = s.aborted ∧
    ∀ K ∈ Ks, HasCompleted (runTasks E swallow Ks s).AMap K := by
  induction Ks generalizing s with
  | nil => exact ⟨rfl, fun K hK => by cases hK⟩
  | cons K Ks ih =>
    have hK : (s.AMap.find K).isSome := h K (List.mem_cons_self _ _)
    have hT : (task E K s).isSome := by rw [task_isSome_iff]; exact hK
    obtain ⟨s', hs'⟩ := Option.isSome_iff_exists.1 hT
    have hab : s'.aborted = s.aborted := by
      obtain ⟨a, _, _, hab, _⟩ := task_AMap E K s s' hs'
      exact hab
    have hrest : ∀ K' ∈ Ks, (s'.AMap.find K').isSome := fun K' hK' =>
      task_slots E K K' s s' hs' (h K' (List.mem_cons_of_mem _ hK'))
    have e : runTasks E swallow (K :: Ks) s = runTasks E swallow Ks s' := by
      rw [runTasks, hs']
    rw [e]
    refine ⟨by rw [(ih s' hrest).1, hab], fun K' hK' => ?_⟩
    rcases List.mem_cons.1 hK' with h1 | h1
    · subst h1
      exact runTasks_hasCompleted E swallow Ks s' _
        (task_hasCompleted E _ _ s s' hs' (Or.inr rfl))
    · exact (ih s' hrest).2 K' h1

theorem repair_frame {σ : Type} (E : Env σ) (M : Module) (s : St σ) :
    (repair E M s).aborted = s.aborted ∧ (repair E M s).rounds = s.rounds ∧
    (repair E M s).evals = s.evals := by
  induction M generalizing s with
  | nil => exact ⟨rfl, rfl, rfl⟩
  | cons F M ih =>
    unfold repair
    split
    · split
      · exact ih s
      · exact ih _
    · exact ih s

theorem repair_hasCompleted {σ : Type} (E : Env σ) (M : Module) (s : St σ) (K₀ : Key)
    (h0 : HasCompleted s.AMap K₀) : HasCompleted (repair E M s).AMap K₀ := by
  induction M generalizing s with
  | nil => exact h0
  | cons F M ih =>
    unfold repair
    split
    · split
      · exact ih s h0
      · apply ih
        exact hasCompleted_assign _ _ _ _ (by simp [LocalAnalysis.completed, LocalAnalysis.create])
          (Or.inl h0)
    · exact ih s h0

theorem repair_allCompleted {σ : Type} (E : Env σ) (M : Module) (s : St σ)
    (h0 : AllCompleted s.AMap) : AllCompleted (repair E M s).AMap := by
  induction M generalizing s with
  | nil => exact h0
  | cons F M ih =>
    unfold repair
    split
    · split
      · exact ih s h0
      · apply ih
        refine allCompleted_assign _ _ _ h0 (fun a ha => ?_)
        cases ha
        simp [LocalAnalysis.completed, LocalAnalysis.create]
    · exact ih s h0

/-- A property that holds after the first round of the loop and that every
later round and every call of `recompute` preserves holds when the loop ends. -/
theorem doWhile_after_first_round {σ : Type} (E : Env σ) (swallow : Bool) (CSRound : Nat)
    (P : St σ → Prop)
    (hround : ∀ (s : St σ) (Ks : List Key), P s → P (runTasks E swallow Ks (s.beginRound Ks)))
    (heval : ∀ s : St σ, P s → P (s.afterRecompute (E.recompute s.NFA)))
    (Count : Nat) (Ks : List Key) (s : St σ)
    (h1 : P (runTasks E swallow Ks (s.beginRound Ks))) :
    P (doWhile E swallow CSRound Count Ks s) := by
  rw [doWhile]
  simp only
  split
  · exact h1
  · split
    · split
      · exact doWhile_invariant E swallow CSRound P hround heval _ (Count + 1) _ _ rfl
          (heval _ h1)
      · exact heval _ h1
    · exact h1

theorem afterRecompute_rounds {σ : Type} (s : St σ) (r : σ × Bool × List Key) :
    (s.afterRecompute r).rounds = s.rounds := rfl

theorem afterRecompute_evals {σ : Type} (s : St σ) (r : σ × Bool × List Key) :
    (s.afterRecompute r).evals = s.evals ++ [(r.2.1, r.2.2)] := rfl

theorem afterRecompute_aborted {σ : Type} (s : St σ) (r : σ × Bool × List Key) :
    (s.afterRecompute r).aborted = s.aborted := rfl

theorem afterRecompute_AMap {σ : Type} (s : St σ) (r : σ × Bool × List Key) :
    (s.afterRecompute r).AMap = s.AMap := rfl

theorem beginRound_rounds {σ : Type} (s : St σ) (Ks : List Key) :
    (s.beginRound Ks).rounds = s.rounds ++ [Ks] := rfl

theorem beginRound_evals {σ : Type} (s : St σ) (Ks : List Key) :
    (s.beginRound Ks).evals = s.evals := rfl

theorem beginRound_aborted {σ : Type} (s : St σ) (Ks : List Key) :
    (s.beginRound Ks).aborted = s.aborted := rfl

theorem beginRound_AMap {σ : Type} (s : St σ) (Ks : List Key) :
    (s.beginRound Ks).AMap = s.AMap := rfl

theorem runTasks_round_logs {σ : Type} (E : Env σ) (swallow : Bool) (Ks : List Key)
    (s : St σ) :
    (runTasks E swallow Ks (s.beginRound Ks)).rounds = s.rounds ++ [Ks] ∧
    (runTasks E swallow Ks (s.beginRound Ks)).evals = s.evals := by
  have hf := runTasks_frame E swallow Ks (s.beginRound Ks)
  exact ⟨hf.1, hf.2.1⟩

theorem doWhile_rounds {σ : Type} (E : Env σ) (swallow : Bool) (CSRound : Nat) :
    ∀ (n Count : Nat) (Ks : List Key) (s : St σ), CSRound - Count = n →
      s.rounds.length + 1 ≤ (doWhile E swallow CSRound Count Ks s).rounds.length ∧
      (doWhile E swallow CSRound Count Ks s).rounds.length ≤ s.rounds.length + 1 + n ∧
      (doWhile E swallow CSRound Count Ks s).evals.length ≤ s.evals.length + n := by
  intro n
  induction n with
  | zero =>
    intro Count Ks s hn
    rw [doWhile]
    have hlt : ¬ Count < CSRound := by omega
    simp only [hlt, if_false]
    have hf := runTasks_round_logs E swallow Ks s
    have hr : (runTasks E swallow Ks (s.beginRound Ks)).rounds.length = s.rounds.length + 1 := by
      rw [hf.1]; simp
    have he : (runTasks E swallow Ks (s.beginRound Ks)).evals.length = s.evals.length := by
      rw [hf.2]
    split <;> omega
  | succ n ih =>
    intro Count Ks s hn
    rw [doWhile]
    have hlt : Count < CSRound := by omega
    simp only [hlt, if_true]
    have hf := runTasks_round_logs E swallow Ks s
    have hr : (runTasks E swallow Ks (s.beginRound Ks)).rounds.length = s.rounds.length + 1 := by
      rw [hf.1]; simp
    have he : (runTasks E swallow Ks (s.beginRound Ks)).evals.length = s.evals.length := by
      rw [hf.2]
    split
    · omega
    · split
      · have h := ih (Count + 1)
          (toSet (E.recompute (runTasks E swallow Ks (s.beginRound Ks)).NFA).2.2)
          ((runTasks E swallow Ks (s.beginRound Ks)).afterRecompute
            (E.recompute (runTasks E swallow Ks (s.beginRound Ks)).NFA)) (by omega)
        rw [afterRecompute_rounds, afterRecompute_evals, List.length_append,
          List.length_singleton] at h
        omega
      · rw [afterRecompute_rounds, afterRecompute_evals, List.length_append,
          List.length_singleton]
        omega

theorem get?_append_singleton {α : Type} (l : List α) (x : α) (j : Nat) :
    (l ++ [x]).get? j =
      if j < l.length then l.get? j else if j = l.length then some x else none := by
  simp only [List.get?_eq_getElem?]
  split
  · rename_i h
    exact List.getElem?_append_left h
  · rename_i h
    rw [List.getElem?_append_right (by omega)]
    split
    · rename_i h2
      simp [h2]
    · rename_i h2
      have : 0 < j - l.length := by omega
      rw [List.getElem?_eq_none]
      simp only [List.length_singleton]
      omega

/-- The log kept by the loop, from a loop head where every earlier call of
`recompute` returned true and was followed by the round of its dirty set. -/
theorem doWhile_trace {σ : Type} (E : Env σ) (swallow : Bool) (CSRound : Nat) :
    ∀ (n Count : Nat) (Ks : List Key) (s : St σ), CSRound - Count = n →
      s.rounds.length = s.evals.length → Count = s.rounds.length + 1 →
      (∀ j b d, s.evals.get? j = some (b, d) →
        b = true ∧ j + 1 < CSRound ∧ (s.rounds ++ [Ks]).get? (j + 1) = some (toSet d)) →
      (∀ j b d, (doWhile E swallow CSRound Count Ks s).evals.get? j = some (b, d) →
        j + 1 < CSRound ∧
        (doWhile E swallow CSRound Count Ks s).rounds.get? (j + 1) =
          if b then some (toSet d) else none) ∧
      (doWhile E swallow CSRound Count Ks s).rounds.length ≤
        (doWhile E swallow CSRound Count Ks s).evals.length + 1 ∧
      ((doWhile E swallow CSRound Count Ks s).aborted = false →
        ∀ j, j < (doWhile E swallow CSRound Count Ks s).rounds.length → j + 1 < CSRound →
          j < (doWhile E swallow CSRound Count Ks s).evals.length) := by
  intro n
  induction n with
  | zero =>
    intro Count Ks s hn hlen hC hpre
    rw [doWhile]
    have hlt : ¬ Count < CSRound := by omega
    simp only [hlt, if_false]
    have hf := runTasks_round_logs E swallow Ks s
    have hfin : ∀ r : St σ, r.rounds = s.rounds ++ [Ks] → r.evals = s.evals →
        (∀ j b d, r.evals.get? j = some (b, d) →
          j + 1 < CSRound ∧ r.rounds.get? (j + 1) = if b then some (toSet d) else none) ∧
        r.rounds.length ≤ r.evals.length + 1 ∧
        (r.aborted = false → ∀ j, j < r.rounds.length → j + 1 < CSRound →
          j < r.evals.length) := by
      intro r hr he
      rw [hr, he]
      refine ⟨fun j b d h => ?_, by simp; omega, fun _ j hj hj2 => ?_⟩
      · obtain ⟨hb, h1, h2⟩ := hpre j b d h
        subst hb
        exact ⟨h1, by simpa using h2⟩
      · simp at hj; omega
    split <;> exact hfin _ hf.1 hf.2
  | succ n ih =>
    intro Count Ks s hn hlen hC hpre
    rw [doWhile]
    have hlt : Count < CSRound := by omega
    simp only [hlt, if_true]
    have hf := runTasks_round_logs E swallow Ks s
    split
    · rename_i hab
      rw [hf.1, hf.2]
      refine ⟨fun j b d h => ?_, by simp; omega, fun hab' => ?_⟩
      · obtain ⟨hb, h1, h2⟩ := hpre j b d h
        subst hb
        exact ⟨h1, by simpa using h2⟩
      · rw [hab] at hab'; cases hab'
    · split
      · rename_i hch
        apply ih (Count + 1) _ _ (by omega)
        · rw [afterRecompute_rounds, afterRecompute_evals, hf.1, hf.2]
          simp [hlen]
        · rw [afterRecompute_rounds, hf.1]
          simp [hC]
        · intro j b d h
          rw [afterRecompute_evals, hf.2, get?_append_singleton] at h
          rw [afterRecompute_rounds, hf.1]
          split at h
          · obtain ⟨hb, h1, h2⟩ := hpre j b d h
            refine ⟨hb, h1, ?_⟩
            rw [get?_append_singleton]
            have hj : j + 1 < (s.rounds ++ [Ks]).length := by
              simp only [List.length_append, List.length_singleton]; omega
            simp only [hj, if_true]
            exact h2
          · split at h
            · rename_i hj
              simp only [Option.some.injEq, Prod.mk.injEq] at h
              obtain ⟨hb, hd⟩ := h
              refine ⟨by rw [← hb]; exact hch, by omega, ?_⟩
              rw [get?_append_singleton]
              have hj1 : ¬ j + 1 < (s.rounds ++ [Ks]).length := by
                simp only [List.length_append, List.length_singleton]; omega
              have hj2 : j + 1 = (s.rounds ++ [Ks]).length := by
                simp only [List.length_append, List.length_singleton]; omega
              rw [if_neg hj1, if_pos hj2, hd]
            · cases h
      · rename_i hch
        rw [afterRecompute_rounds, afterRecompute_evals, hf.1, hf.2]
        refine ⟨fun j b d h => ?_, by simp; omega, fun _ j hj hj2 => ?_⟩
        · rw [get?_append_singleton] at h
          split at h
          · obtain ⟨hb, h1, h2⟩ := hpre j b d h
            subst hb
            exact ⟨h1, by simpa using h2⟩
          · split at h
            · rename_i hj
              simp only [Option.some.injEq, Prod.mk.injEq] at h
              obtain ⟨hb, hd⟩ := h
              have hb' : b = false := by
                rw [← hb]; simpa using hch
              subst hb'
              refine ⟨by omega, ?_⟩
              rw [get?_append_singleton]
              have hj1 : ¬ j + 1 < s.rounds.length := by omega
              have hj2 : ¬ j + 1 = s.rounds.length := by omega
              simp [hj1, hj2]
            · cases h
        · simp at hj ⊢; omega

/-! ## The driver: theorems -/

/-- C6: for every module, every environment (oracle and local analyses),
either way the thread pool treats an exception, and every `CSRound` and
`MaxContextDepth`, in the state `runOnModule` ends in every function of the
module with a body has an entry under (function, empty context) that holds a
completed local analysis; and the run reaches its end (statistics included)
whenever the pool swallows exceptions. -/
theorem runOnModule_coverage {σ : Type} (E : Env σ) (swallow : Bool)
    (CSRound MaxContextDepth : Nat) (M : Module) (NFA : σ) (F : Function)
    (hF : F ∈ M) (hB : F.empty = false) :
    (∃ LNCA : LocalAnalysis,
      (runOnModule E swallow CSRound MaxContextDepth M NFA).st.AMap.find (F.id, []) =
        some (some LNCA) ∧ LNCA.completed) ∧
    (swallow = true →
      (runOnModule E swallow CSRound MaxContextDepth M NFA).st.aborted = false ∧
      (runOnModule E swallow CSRound MaxContextDepth M NFA).stats.isSome = true) := by
  have hloop : HasCompleted (doWhile E swallow CSRound 1 (seed M ([], [])).2
      (St.init (seed M ([], [])).1 NFA)).AMap (F.id, []) := by
    apply doWhile_after_first_round E swallow CSRound (fun s => HasCompleted s.AMap (F.id, []))
    · intro s Ks hs
      exact runTasks_hasCompleted E swallow Ks _ _ hs
    · intro s hs
      exact hs
    · refine (runTasks_slots E swallow _ _ ?_).2 _ (seed_covers M [] [] F hF hB).1
      exact seed_slots M [] [] (fun K hK => by cases hK)
  refine ⟨?_, fun hsw => ?_⟩
  · unfold runOnModule
    simp only
    split
    · exact hloop
    · exact repair_hasCompleted E M _ _ hloop
  · subst hsw
    have hab : (doWhile E true CSRound 1 (seed M ([], [])).2
        (St.init (seed M ([], [])).1 NFA)).aborted = false := by
      apply doWhile_invariant E true CSRound (fun s => s.aborted = false) ?_ ?_
        (CSRound - 1) 1 _ _ rfl rfl
      · intro s Ks hs
        rw [runTasks_swallow]; exact hs
      · intro s hs
        exact hs
    unfold runOnModule
    simp only [hab]
    simp [(repair_frame E M _).1, hab]

/-- C7: for a positive `CSRound` the loop executes at least one and at most
`CSRound` rounds, whatever `recompute` returns; with `CSRound = 1` exactly
one round is executed and `recompute` is never called. -/
theorem runOnModule_rounds_bounded {σ : Type} (E : Env σ) (swallow : Bool)
    (CSRound MaxContextDepth : Nat) (M : Module) (NFA : σ) :
    1 ≤ (runOnModule E swallow CSRound MaxContextDepth M NFA).st.rounds.length ∧
    (0 < CSRound →
      (runOnModule E swallow CSRound MaxContextDepth M NFA).st.rounds.length ≤ CSRound) ∧
    (CSRound = 1 →
      (runOnModule E swallow CSRound MaxContextDepth M NFA).st.rounds.length = 1 ∧
      (runOnModule E swallow CSRound MaxContextDepth M NFA).st.evals = []) := by
  have h := doWhile_rounds E swallow CSRound (CSRound - 1) 1 (seed M ([], [])).2
    (St.init (seed M ([], [])).1 NFA) rfl
  have hr : (runOnModule E swallow CSRound MaxContextDepth M NFA).st.rounds =
      (doWhile E swallow CSRound 1 (seed M ([], [])).2
        (St.init (seed M ([], [])).1 NFA)).rounds := by
    unfold runOnModule
    simp only
    split
    · rfl
    · exact (repair_frame E M _).2.1
  have he : (runOnModule E swallow CSRound MaxContextDepth M NFA).st.evals =
      (doWhile E swallow CSRound 1 (seed M ([], [])).2
        (St.init (seed M ([], [])).1 NFA)).evals := by
    unfold runOnModule
    simp only
    split
    · rfl
    · exact (repair_frame E M _).2.2
  rw [hr, he]
  have h0 : (St.init (seed M ([], [])).1 NFA).rounds.length = 0 := rfl
  have h1 : (St.init (seed M ([], [])).1 NFA).evals.length = 0 := rfl
  rw [h0, h1] at h
  refine ⟨by omega, fun hpos => by omega, fun h1 => ⟨by omega, ?_⟩⟩
  apply List.eq_nil_of_length_eq_zero
  omega

/-- The theorem of C6 at a concrete run: the module has a declaration and the
function `fnF`, `recompute` emits a key that has no slot and the pool lets the
exception end the run; `fnF` still holds a completed empty-context analysis. -/
theorem runOnModule_coverage_witness :
    ∃ LNCA : LocalAnalysis,
      (runOnModule envDirty false 2 3 [fnDecl, fnF] 0).st.AMap.find (fnF.id, []) =
        some (some LNCA) ∧ LNCA.completed :=
  (runOnModule_coverage envDirty false 2 3 [fnDecl, fnF] 0 fnF (by decide) rfl).1

/-- The theorem of C7 at a concrete run: `recompute` of `envQuiet` returns true
for ever and the cap is 3. -/
theorem runOnModule_rounds_bounded_witness :
    (runOnModule envQuiet true 3 3 [fnDecl, fnF] 0).st.rounds.length ≤ 3 :=
  (runOnModule_rounds_bounded envQuiet true 3 3 [fnDecl, fnF] 0).2.1 (by decide)

/-- The logs of the run of `envDirty` with cap 2 when the pool swallows
exceptions. -/
theorem run_dirty_logs :
    (runOnModule envDirty true 2 3 [fnDecl, fnF] 0).st.rounds = [[(0, [])], [(0, [csA])]] ∧
    (runOnModule envDirty true 2 3 [fnDecl, fnF] 0).st.evals = [(true, [(0, [csA])])] := by
  simp [runOnModule, doWhile, seed, St.init, St.beginRound, St.afterRecompute, runTasks, task,
    Function.empty, fnF, fnDecl, AnalysisMap.assign, find_cons, find_nil, setInsert, toSet,
    envDirty, repair, repair_frame]

/-- The rounds of a run follow the calls of `recompute`, for any oracle:
`recompute` is called after round `j + 1` only when `j + 1 < CSRound`; round
`j + 2` is executed exactly when that call returned true, and its pending set
is then the set of the keys the call emitted; and unless an exception has
ended the run, `recompute` is called after every executed round below the
cap. -/
theorem runOnModule_round_follows_recompute {σ : Type} (E : Env σ) (swallow : Bool)
    (CSRound MaxContextDepth : Nat) (M : Module) (NFA : σ) :
    (∀ (j : Nat) (b : Bool) (d : List Key),
      (runOnModule E swallow CSRound MaxContextDepth M NFA).st.evals.get? j = some (b, d) →
      j + 1 < CSRound ∧
      (runOnModule E swallow CSRound MaxContextDepth M NFA).st.rounds.get? (j + 1) =
        if b then some (toSet d) else none) ∧
    (∀ j : Nat,
      ((runOnModule E swallow CSRound MaxContextDepth M NFA).st.rounds.get? (j + 1)).isSome = true →
      ∃ d, (runOnModule E swallow CSRound MaxContextDepth M NFA).st.evals.get? j =
        some (true, d)) ∧
    ((runOnModule E swallow CSRound MaxContextDepth M NFA).st.aborted = false →
      ∀ j : Nat, j < (runOnModule E swallow CSRound MaxContextDepth M NFA).st.rounds.length →
        j + 1 < CSRound →
        j < (runOnModule E swallow CSRound MaxContextDepth M NFA).st.evals.length) := by
  have h := doWhile_trace E swallow CSRound (CSRound - 1) 1 (seed M ([], [])).2
    (St.init (seed M ([], [])).1 NFA) rfl rfl rfl (fun j b d hj => by cases hj)
  have hst : ∀ r : St σ,
      r.rounds = (doWhile E swallow CSRound 1 (seed M ([], [])).2
        (St.init (seed M ([], [])).1 NFA)).rounds →
      r.evals = (doWhile E swallow CSRound 1 (seed M ([], [])).2
        (St.init (seed M ([], [])).1 NFA)).evals →
      r.aborted = (doWhile E swallow CSRound 1 (seed M ([], [])).2
        (St.init (seed M ([], [])).1 NFA)).aborted →
      (∀ (j : Nat) (b : Bool) (d : List Key), r.evals.get? j = some (b, d) →
        j + 1 < CSRound ∧ r.rounds.get? (j + 1) = if b then some (toSet d) else none) ∧
      (∀ j : Nat, (r.rounds.get? (j + 1)).isSome = true →
        ∃ d, r.evals.get? j = some (true, d)) ∧
      (r.aborted = false → ∀ j : Nat, j < r.rounds.length → j + 1 < CSRound →
        j < r.evals.length) := by
    intro r hr he ha
    rw [hr, he, ha]
    refine ⟨h.1, fun j hj => ?_, h.2.2⟩
    have hlt : j + 1 < (doWhile E swallow CSRound 1 (seed M ([], [])).2
        (St.init (seed M ([], [])).1 NFA)).rounds.length := by
      rcases Option.isSome_iff_exists.1 hj with ⟨x, hx⟩
      rw [List.get?_eq_getElem?] at hx
      exact (List.getElem?_eq_some.1 hx).1
    have hj' : j < (doWhile E swallow CSRound 1 (seed M ([], [])).2
        (St.init (seed M ([], [])).1 NFA)).evals.length := by
      have := h.2.1
      omega
    obtain ⟨⟨b, d⟩, hbd⟩ : ∃ e, (doWhile E swallow CSRound 1 (seed M ([], [])).2
        (St.init (seed M ([], [])).1 NFA)).evals.get? j = some e := by
      rw [List.get?_eq_getElem?]
      exact ⟨_, List.getElem?_eq_getElem hj'⟩
    have h2 := (h.1 j b d hbd).2
    cases b with
    | true => exact ⟨d, hbd⟩
    | false =>
      rw [h2] at hj
      cases hj
  unfold runOnModule
  simp only
  split
  · exact hst _ rfl rfl rfl
  · exact hst _ (repair_frame E M _).2.1 (repair_frame E M _).2.2 (repair_frame E M _).1

/-- A key without a slot makes the task throw: `AnalysisMap.at` finds nothing
and no analysis is created. -/
theorem task_none_of_no_slot {σ : Type} (E : Env σ) (K : Key) (s : St σ)
    (h : s.AMap.find K = none) : task E K s = none := by
  unfold task
  rw [h]

/-- C9 fails on the code: in the run of `envDirty` with cap 2, `recompute`
emits the key `(0, [csA])`, which has no slot; the task of round 2 throws at
`AnalysisMap.at`: when the exception ends the run the statistics are never
reached, and when the pool swallows it the key still has no entry at the end
of the run. -/
theorem task_of_emitted_key_throws :
    task envDirty (0, [csA]) (St.init [((0, []), none)] 0) = none ∧
    (runOnModule envDirty false 2 3 [fnDecl, fnF] 0).st.rounds =
      [[(0, [])], [(0, [csA])]] ∧
    (runOnModule envDirty false 2 3 [fnDecl, fnF] 0).st.aborted = true ∧
    (runOnModule envDirty false 2 3 [fnDecl, fnF] 0).stats = none ∧
    (runOnModule envDirty false 2 3 [fnDecl, fnF] 0).st.AMap.find (0, [csA]) = none ∧
    (runOnModule envDirty true 2 3 [fnDecl, fnF] 0).st.aborted = false ∧
    (runOnModule envDirty true 2 3 [fnDecl, fnF] 0).st.AMap.find (0, [csA]) = none := by
  refine ⟨rfl, ?_, ?_, ?_, ?_, ?_, ?_⟩ <;>
  simp [runOnModule, doWhile, seed, St.init, St.beginRound, St.afterRecompute, runTasks, task,
    Function.empty, fnF, fnDecl, AnalysisMap.assign, find_cons, find_nil, setInsert, toSet,
    envDirty, repair, repair_frame]

/-! ## Lemmas on the statistics -/

theorem isNotNull_iff {σ : Type} (E : Env σ) (k : Nat) (NFA : σ) (AMap : AnalysisMap)
    (Op : Value) (I : Instruction) (cs : List Context) :
    isNotNull E k NFA AMap Op I cs = true ↔
      ∃ c ∈ cs, mayNull E k NFA AMap Op I c = false := by
  induction cs with
  | nil => simp [isNotNull]
  | cons c cs ih =>
    unfold isNotNull
    by_cases h : mayNull E k NFA AMap Op I c = false
    · simp [h]
    · have h' : mayNull E k NFA AMap Op I c = true := by simpa using h
      simp [h', ih]

theorem mem_functionContexts (AMap : AnalysisMap) (F : Function) (c : Context) :
    c ∈ functionContexts AMap F ↔ ∃ a : LocalAnalysis, ((F.id, c), some a) ∈ AMap := by
  unfold functionContexts
  rw [List.mem_filterMap]
  constructor
  · rintro ⟨⟨⟨f, c'⟩, v⟩, hmem, h⟩
    split at h
    · rename_i hc
      simp only [Option.some.injEq] at h
      subst h
      obtain ⟨hf, hv⟩ := hc
      simp only at hf
      subst hf
      obtain ⟨a, ha⟩ := Option.isSome_iff_exists.1 hv
      simp only at ha
      subst ha
      exact ⟨a, hmem⟩
    · cases h
  · rintro ⟨a, hmem⟩
    exact ⟨((F.id, c), some a), hmem, by simp⟩

theorem iterate_incr_mod (a x : Nat) : incr^[a] (x % 2 ^ 32) = (x + a) % 2 ^ 32 := by
  induction a generalizing x with
  | zero => rfl
  | succ a ih =>
    rw [Function.iterate_succ_apply]
    have : incr (x % 2 ^ 32) = (x + 1) % 2 ^ 32 := by
      unfold incr; omega
    rw [this, ih]
    congr 1
    omega

theorem iterate_incr_zero (a : Nat) : incr^[a] 0 = a % 2 ^ 32 := by
  have := iterate_incr_mod a 0
  simpa using this

theorem bump_zero (c : Counters) : c.bump 0 0 = c := rfl

theorem bump_bump (c : Counters) (a b a' b' : Nat) :
    (c.bump a b).bump a' b' = c.bump (a + a') (b + b') := by
  simp only [Counters.bump, Nat.add_comm a a', Nat.add_comm b b', Function.iterate_add_apply]

theorem countOperand_bump {σ : Type} (E : Env σ) (k : Nat) (NFA : σ) (AMap : AnalysisMap)
    (cs : List Context) (I : Instruction) (c : Counters) (Op : Value) :
    countOperand E k NFA AMap cs I c Op =
      c.bump (occOfOperands I [Op]).length
        ((occOfOperands I [Op]).filter fun o => isNotNull E k NFA AMap o.1 o.2 cs).length := by
  unfold countOperand occOfOperands
  by_cases hp : Op.isPointerTy = true
  · by_cases hn : isNotNull E k NFA AMap Op I cs = true
    · simp [hp, hn, Counters.bump]
    · simp [hp, hn, Counters.bump]
  · simp [hp, Counters.bump]

theorem occOfOperands_cons (I : Instruction) (Op : Value) (ops : List Value) :
    occOfOperands I (Op :: ops) = occOfOperands I [Op] ++ occOfOperands I ops := by
  unfold occOfOperands
  by_cases hp : Op.isPointerTy = true <;> simp [List.filter_cons, hp]

theorem foldl_countOperand {σ : Type} (E : Env σ) (k : Nat) (NFA : σ) (AMap : AnalysisMap)
    (cs : List Context) (I : Instruction) (ops : List Value) (c : Counters) :
    ops.foldl (countOperand E k NFA AMap cs I) c =
      c.bump (occOfOperands I ops).length
        ((occOfOperands I ops).filter fun o => isNotNull E k NFA AMap o.1 o.2 cs).length := by
  induction ops generalizing c with
  | nil => rfl
  | cons Op ops ih =>
    rw [List.foldl_cons, ih, countOperand_bump, bump_bump, occOfOperands_cons I Op ops,
      List.filter_append, List.length_append, List.length_append]

theorem foldl_block {σ : Type} (E : Env σ) (k : Nat) (NFA : σ) (AMap : AnalysisMap)
    (cs : List Context) (BB : List Instruction) (c : Counters) :
    BB.foldl (fun c I => I.operands.foldl (countOperand E k NFA AMap cs I) c) c =
      c.bump (occOfBlock BB).length
        ((occOfBlock BB).filter fun o => isNotNull E k NFA AMap o.1 o.2 cs).length := by
  induction BB generalizing c with
  | nil => rfl
  | cons I BB ih =>
    rw [List.foldl_cons, ih, foldl_countOperand, bump_bump]
    simp only [occOfBlock, List.filter_append, List.length_append]

theorem countBody_bump {σ : Type} (E : Env σ) (k : Nat) (NFA : σ) (AMap : AnalysisMap)
    (cs : List Context) (blocks : List (List Instruction)) (c : Counters) :
    countBody E k NFA AMap cs blocks c =
      c.bump (ptrOccurrences blocks).length
        ((ptrOccurrences blocks).filter fun o => isNotNull E k NFA AMap o.1 o.2 cs).length := by
  unfold countBody
  induction blocks generalizing c with
  | nil => rfl
  | cons BB blocks ih =>
    rw [List.foldl_cons, ih, foldl_block, bump_bump]
    simp only [ptrOccurrences, List.filter_append, List.length_append]

theorem lookup_cons_eq (F G : Nat) (v : Nat × Nat) (m : List (Nat × Nat × Nat)) :
    List.lookup F ((G, v) :: m) = if F = G then some v else List.lookup F m := by
  by_cases h : F = G
  · subst h; simp [List.lookup]
  · have : (F == G) = false := by simpa using h
    simp [List.lookup, this, h]

theorem lookup_statsAssign_self (m : List (Nat × Nat × Nat)) (F : Nat) (v : Nat × Nat) :
    List.lookup F (statsAssign m F v) = some v := by
  induction m with
  | nil => simp [statsAssign, lookup_cons_eq]
  | cons e m ih =>
    obtain ⟨G, w⟩ := e
    by_cases h : G = F
    · simp [statsAssign, h, lookup_cons_eq]
    · have h' : ¬ F = G := fun e => h e.symm
      simp [statsAssign, h, lookup_cons_eq, h', ih]

theorem lookup_statsAssign_ne (m : List (Nat × Nat × Nat)) (F F₀ : Nat) (v : Nat × Nat)
    (hne : F₀ ≠ F) : List.lookup F₀ (statsAssign m F v) = List.lookup F₀ m := by
  induction m with
  | nil => simp [statsAssign, lookup_cons_eq, hne]
  | cons e m ih =>
    obtain ⟨G, w⟩ := e
    by_cases h : G = F
    · subst h; simp [statsAssign, lookup_cons_eq, hne]
    · simp [statsAssign, h, lookup_cons_eq, ih]

theorem collect_totals {σ : Type} (E : Env σ) (k : Nat) (s : St σ) (M : Module) (st : Stats) :
    (collect E k s.NFA s.AMap M st).TotalPtrInsts =
      incr^[(moduleOccurrences M).length] st.TotalPtrInsts ∧
    (collect E k s.NFA s.AMap M st).NotNullPtrInsts =
      incr^[((moduleOccurrences M).filter fun t => countedNotNull E k s t.1 t.2).length]
        st.NotNullPtrInsts := by
  induction M generalizing st with
  | nil => exact ⟨rfl, rfl⟩
  | cons F M ih =>
    unfold collect moduleOccurrences
    by_cases hF : F.empty = true
    · simp only [hF, if_true, List.nil_append]
      exact ih st
    · simp only [hF, if_false, Bool.false_eq_true]
      rw [(ih _).1, (ih _).2, countBody_bump]
      simp only [Counters.bump, List.length_append, List.length_map, List.filter_append,
        List.filter_map]
      constructor
      · rw [Nat.add_comm, Function.iterate_add_apply]
      · rw [Nat.add_comm, Function.iterate_add_apply]
        rfl

theorem collect_functionStats {σ : Type} (E : Env σ) (k : Nat) (s : St σ) (F : Function)
    (M : Module) (st : Stats) (huniq : ∀ G ∈ M, G.id = F.id → G = F)
    (h : List.lookup F.id st.FunctionStats =
        some ((ptrOccurrences F.blocks).length % 2 ^ 32,
          ((ptrOccurrences F.blocks).filter fun o => countedNotNull E k s F o).length % 2 ^ 32) ∨
      (F ∈ M ∧ F.empty = false)) :
    List.lookup F.id (collect E k s.NFA s.AMap M st).FunctionStats =
      some ((ptrOccurrences F.blocks).length % 2 ^ 32,
        ((ptrOccurrences F.blocks).filter fun o => countedNotNull E k s F o).length % 2 ^ 32) := by
  induction M generalizing st with
  | nil =>
    rcases h with h | h
    · exact h
    · cases h.1
  | cons G M ih =>
    have huniq' : ∀ G' ∈ M, G'.id = F.id → G' = F := fun G' hG' =>
      huniq G' (List.mem_cons_of_mem _ hG')
    unfold collect
    by_cases hG : G.empty = true
    · simp only [hG, if_true]
      apply ih st huniq'
      rcases h with h | ⟨hmem, hB⟩
      · exact Or.inl h
      · rcases List.mem_cons.1 hmem with e | e
        · subst e; rw [hG] at hB; cases hB
        · exact Or.inr ⟨e, hB⟩
    · simp only [hG, if_false, Bool.false_eq_true]
      apply ih _ huniq'
      by_cases hid : G.id = F.id
      · have hGF : G = F := huniq G (List.mem_cons_self _ _) hid
        subst hGF
        left
        simp only
        rw [lookup_statsAssign_self, countBody_bump]
        simp only [Counters.bump, iterate_incr_zero]
        rfl
      · rcases h with h | ⟨hmem, hB⟩
        · left
          simp only
          rw [lookup_statsAssign_ne _ _ _ _ (fun e => hid e.symm)]
          exact h
        · rcases List.mem_cons.1 hmem with e | e
          · subst e; exact absurd rfl hid
          · exact Or.inr ⟨e, hB⟩

theorem doWhile_allCompleted {σ : Type} (E : Env σ) (swallow : Bool) (CSRound Count : Nat)
    (Ks : List Key) (s : St σ) (h : AllCompleted s.AMap) :
    AllCompleted (doWhile E swallow CSRound Count Ks s).AMap := by
  apply doWhile_invariant E swallow CSRound (fun s => AllCompleted s.AMap) ?_ ?_
    (CSRound - Count) Count Ks s rfl h
  · intro s Ks hs
    exact runTasks_allCompleted E swallow Ks _ hs
  · intro s hs
    exact hs

/-- The statistics of the run of `envQuiet` with cap 1: two pointer operands,
one of them proven NOT_NULL. -/
theorem run_quiet_stats :
    (runOnModule envQuiet true 1 3 [fnDecl, fnF] 0).stats =
      some { TotalPtrInsts := 2, NotNullPtrInsts := 1, FunctionStats := [(0, 2, 1)] } := by
  simp [runOnModule, doWhile, seed, St.init, St.beginRound, St.afterRecompute, runTasks, task,
    Function.empty, fnF, fnDecl, AnalysisMap.assign, find_cons, find_nil, setInsert, toSet,
    envQuiet, repair, collect, countBody, countOperand, isNotNull, mayNull, functionContexts,
    incr, limitContext, instI, ptrP, ptrQ, intN, statsAssign, LocalAnalysis.mayNull,
    LocalAnalysis.create]

/-! ## The statistics: theorems -/

/-- C10: in the statistics `runOnModule` computes, the flag of an operand
occurrence of a function is set exactly when the final map has an entry of that
function, under some context, that holds a completed analysis and for which
the query `mayNull` at that context is false; the program-wide total counts
every pointer-typed operand occurrence of the functions with a body once, the
NOT_NULL counter counts those whose flag is set, and the entry of each
function in `FunctionStats` holds the same two counts for the function (the
counters are `unsigned`, so all counts are modulo 2^32). -/
theorem runOnModule_statistics {σ : Type} (E : Env σ) (swallow : Bool)
    (CSRound MaxContextDepth : Nat) (M : Module) (NFA : σ) (st : Stats)
    (hst : (runOnModule E swallow CSRound MaxContextDepth M NFA).stats = some st) :
    (∀ (F : Function) (Op : Value) (I : Instruction),
      countedNotNull E MaxContextDepth
          (runOnModule E swallow CSRound MaxContextDepth M NFA).st F (Op, I) = true ↔
        ∃ (c : Context) (LNCA : LocalAnalysis),
          ((F.id, c), some LNCA) ∈ (runOnModule E swallow CSRound MaxContextDepth M NFA).st.AMap ∧
          LNCA.completed ∧
          mayNull E MaxContextDepth (runOnModule E swallow CSRound MaxContextDepth M NFA).st.NFA
            (runOnModule E swallow CSRound MaxContextDepth M NFA).st.AMap Op I c = false) ∧
    st.TotalPtrInsts = (moduleOccurrences M).length % 2 ^ 32 ∧
    st.NotNullPtrInsts =
      ((moduleOccurrences M).filter fun t =>
        countedNotNull E MaxContextDepth
          (runOnModule E swallow CSRound MaxContextDepth M NFA).st t.1 t.2).length % 2 ^ 32 ∧
    (∀ F ∈ M, F.empty = false → (∀ G ∈ M, G.id = F.id → G = F) →
      List.lookup F.id st.FunctionStats =
        some ((ptrOccurrences F.blocks).length % 2 ^ 32,
          ((ptrOccurrences F.blocks).filter fun o =>
            countedNotNull E MaxContextDepth
              (runOnModule E swallow CSRound MaxContextDepth M NFA).st F o).length % 2 ^ 32)) := by
  have hloop : AllCompleted (doWhile E swallow CSRound 1 (seed M ([], [])).2
      (St.init (seed M ([], [])).1 NFA)).AMap :=
    doWhile_allCompleted E swallow CSRound 1 _ _
      (seed_allCompleted M [] [] (fun e he => by cases he))
  unfold runOnModule at hst ⊢
  simp only at hst ⊢
  split at hst
  · cases hst
  · rename_i hab
    simp only [hab, Bool.false_eq_true, if_false] at hst ⊢
    simp only [Option.some.injEq] at hst
    have hall := repair_allCompleted E M _ hloop
    refine ⟨fun F Op I => ?_, ?_, ?_, fun F hF hB huniq => ?_⟩
    · unfold countedNotNull
      rw [isNotNull_iff]
      constructor
      · rintro ⟨c, hc, hm⟩
        obtain ⟨a, ha⟩ := (mem_functionContexts _ F c).1 hc
        exact ⟨c, a, ha, hall _ ha a rfl, hm⟩
      · rintro ⟨c, a, ha, _, hm⟩
        exact ⟨c, (mem_functionContexts _ F c).2 ⟨a, ha⟩, hm⟩
    · rw [← hst, (collect_totals E MaxContextDepth _ M _).1]
      exact iterate_incr_zero _
    · rw [← hst, (collect_totals E MaxContextDepth _ M _).2]
      exact iterate_incr_zero _
    · rw [← hst]
      exact collect_functionStats E MaxContextDepth _ F M _ huniq (Or.inr ⟨hF, hB⟩)

/-- The theorem of C10 at a concrete run: the module has the declaration
`fnDecl` and the function `fnF`, whose instruction has the pointer operands
`ptrP` and `ptrQ`; the total is 2, the number of pointer-typed occurrences. -/
theorem runOnModule_statistics_witness :
    (runOnModule envQuiet true 1 3 [fnDecl, fnF] 0).stats =
      some { TotalPtrInsts := 2, NotNullPtrInsts := 1, FunctionStats := [(0, 2, 1)] } ∧
    (2 : Nat) = (moduleOccurrences [fnDecl, fnF]).length % 2 ^ 32 ∧
    (1 : Nat) = ((moduleOccurrences [fnDecl, fnF]).filter fun t =>
      countedNotNull envQuiet 3 (runOnModule envQuiet true 1 3 [fnDecl, fnF] 0).st
        t.1 t.2).length % 2 ^ 32 :=
  ⟨run_quiet_stats,
    (runOnModule_statistics envQuiet true 1 3 [fnDecl, fnF] 0 _ run_quiet_stats).2.1,
    (runOnModule_statistics envQuiet true 1 3 [fnDecl, fnF] 0 _ run_quiet_stats).2.2.1⟩

/-! ## The display string and the factory: theorems -/

theorem intercalate_go_append (R acc sep : String) (l : List String) :
    R ++ String.intercalate.go acc sep l = String.intercalate.go (R ++ acc) sep l := by
  induction l generalizing acc with
  | nil => rfl
  | cons a l ih =>
    simp only [String.intercalate.go]
    rw [ih]
    simp only [String.append_assoc]

theorem getContextStringLoop_succ (i : Nat) (rest : List CallSite) (Result : String) :
    getContextStringLoop (i + 1) rest Result =
      String.intercalate.go Result ", " (rest.map renderCallSite) := by
  induction rest generalizing i Result with
  | nil => rfl
  | cons cs rest ih =>
    simp only [getContextStringLoop, List.map_cons, String.intercalate.go]
    rw [ih]
    simp

theorem renderCallSite_eq (cs : CallSite) :
    renderCallSite cs = cs.name.getD "<unnamed call>" := by
  unfold renderCallSite
  cases cs.name <;> rfl

/-- C15: `getContextString` gives an opening bracket, the renderings of the
call sites in order joined by a comma and a blank, and a closing bracket, a
call site being rendered as its name or, without one, as `<unnamed call>`;
the empty context gives `[]`, and two contexts with the same sequence of
names give the same string. -/
theorem getContextString_eq_displayString :
    (∀ Ctx : Context, getContextString Ctx = displayString Ctx) ∧
    getContextString [] = "[]" ∧
    (∀ c1 c2 : Context, c1.map CallSite.name = c2.map CallSite.name →
      getContextString c1 = getContextString c2) := by
  have h : ∀ Ctx : Context, getContextString Ctx = displayString Ctx := by
    intro Ctx
    have hm : (Ctx.map fun cs => cs.name.getD "<unnamed call>") = Ctx.map renderCallSite :=
      List.map_congr_left (fun cs _ => (renderCallSite_eq cs).symm)
    unfold getContextString displayString
    rw [hm]
    cases Ctx with
    | nil => rfl
    | cons cs rest =>
      simp only [getContextStringLoop, List.map_cons, String.intercalate]
      rw [getContextStringLoop_succ, intercalate_go_append]
      simp
  refine ⟨h, rfl, fun c1 c2 hn => ?_⟩
  rw [h, h]
  unfold displayString
  have e : ∀ c : Context, (c.map fun cs => cs.name.getD "<unnamed call>") =
      (c.map CallSite.name).map fun n => n.getD "<unnamed call>" := by
    intro c; simp
  rw [e c1, e c2, hn]

/-- The theorem of C15 at a concrete context: two named call sites around one
without a name. -/
theorem getContextString_eq_displayString_witness :
    getContextString [csA, csC, csB] = "[call_f, <unnamed call>, call_g]" := by
  rw [getContextString_eq_displayString.1]
  decide

/-- C18: `create` returns a non-null pointer for every type string; the four
known names select their implementations, and every other string selects the
Andersen implementation (with the warning). -/
theorem create_total (M : Module) (T : String) :
    (PointerAnalysisFactory.create M T).ptr ≠ none ∧
    (T = "andersen" → (PointerAnalysisFactory.create M T).ptr =
      some { kind := .Andersen, module := M }) ∧
    (T = "cfl-anders" → (PointerAnalysisFactory.create M T).ptr =
      some { kind := .CFLAnder, module := M }) ∧
    (T = "cfl-steens" → (PointerAnalysisFactory.create M T).ptr =
      some { kind := .CFLSteens, module := M }) ∧
    (T = "basic" → (PointerAnalysisFactory.create M T).ptr =
      some { kind := .BasicAA, module := M }) ∧
    (T ≠ "andersen" → T ≠ "cfl-anders" → T ≠ "cfl-steens" → T ≠ "basic" →
      (PointerAnalysisFactory.create M T).ptr = some { kind := .Andersen, module := M } ∧
      (PointerAnalysisFactory.create M T).warned = true) := by
  refine ⟨?_, ?_, ?_, ?_, ?_, ?_⟩
  · unfold PointerAnalysisFactory.create
    split_ifs <;> simp
  · intro h; subst h; rfl
  · intro h; subst h; rfl
  · intro h; subst h; rfl
  · intro h; subst h; rfl
  · intro h1 h2 h3 h4
    simp [PointerAnalysisFactory.create, h1, h2, h3, h4]

/-- The theorem of C18 at concrete strings: the empty string and a
differently-cased name fall to the Andersen implementation, and `basic`
selects BasicAA. -/
theorem create_total_witness :
    (PointerAnalysisFactory.create [fnF] "").ptr =
      some { kind := .Andersen, module := [fnF] } ∧
    (PointerAnalysisFactory.create [fnF] "Andersen").ptr =
      some { kind := .Andersen, module := [fnF] } ∧
    (PointerAnalysisFactory.create [fnF] "basic").ptr =
      some { kind := .BasicAA, module := [fnF] } :=
  ⟨((create_total [fnF] "").2.2.2.2.2 (by decide) (by decide) (by decide) (by decide)).1,
   ((create_total [fnF] "Andersen").2.2.2.2.2 (by decide) (by decide) (by decide)
      (by decide)).1,
   (create_total [fnF] "basic").2.2.2.2.1 rfl⟩

/-! ## The query as an operation: theorems -/

theorem mayNullOp_result {σ : Type} (E : Env σ) (k : Nat) (NFA : σ) (AMap : AnalysisMap)
    (p : Value) (i : Instruction) (c : Context) :
    (mayNullOp E k NFA AMap p i c).result = mayNull E k NFA AMap p i c := by
  unfold mayNullOp mayNull AnalysisMap.findOp
  by_cases hO : E.notNull NFA p (limitContext k c) = true
  · simp [hO]
  · rcases h1 : AMap.find (i.getFunction, limitContext k c) with _ | _ | a <;>
      rcases h2 : AMap.find (i.getFunction, []) with _ | _ | b <;>
      simp [hO, h1, h2]

theorem mayNullOp_AMap {σ : Type} (E : Env σ) (k : Nat) (NFA : σ) (AMap : AnalysisMap)
    (p : Value) (i : Instruction) (c : Context) :
    (mayNullOp E k NFA AMap p i c).AMap = AMap := by
  unfold mayNullOp AnalysisMap.findOp
  simp only
  split
  · rfl
  · split
    · rfl
    · split <;> rfl

/-- C16: a call of `mayNull` leaves the analysis map as it was (no entry is
added for a missing key and no slot is changed), so with the oracle state and
the local analyses fixed a second call with the same arguments, made on the
map the first call left, returns the same result. -/
theorem mayNull_leaves_map {σ : Type} (E : Env σ) (k : Nat) (NFA : σ) (AMap : AnalysisMap)
    (p : Value) (i : Instruction) (c : Context) :
    (mayNullOp E k NFA AMap p i c).AMap = AMap ∧
    (∀ K : Key, (mayNullOp E k NFA AMap p i c).AMap.find K = AMap.find K) ∧
    (mayNullOp E k NFA (mayNullOp E k NFA AMap p i c).AMap p i c).result =
      (mayNullOp E k NFA AMap p i c).result ∧
    (mayNullOp E k NFA AMap p i c).result = mayNull E k NFA AMap p i c := by
  have h := mayNullOp_AMap E k NFA AMap p i c
  refine ⟨h, fun K => by rw [h], by rw [h], mayNullOp_result E k NFA AMap p i c⟩

/-- The theorem of C16 at a concrete query: the key `(0, [csA])` is missing
before the call and still missing after it. -/
theorem mayNull_leaves_map_witness :
    (mayNullOp envQuiet 3 0 [((0, []), some lncaEmpty)] ptrP instI [csA]).AMap.find
      (0, [csA]) = none :=
  ((mayNull_leaves_map envQuiet 3 0 [((0, []), some lncaEmpty)] ptrP instI [csA]).2.1
    (0, [csA])).trans rfl

/-! ## Lemmas on the steps of a run -/

theorem repair_cons_skip {σ : Type} (E : Env σ) (F : Function) (M : Module) (s : St σ)
    (h : F.empty = true ∨ ∃ a : LocalAnalysis, s.AMap.find (F.id, []) = some (some a)) :
    repair E (F :: M) s = repair E M s := by
  rw [repair]
  rcases h with h | ⟨a, h⟩
  · simp [h]
  · split
    · simp only [h]
    · rfl

theorem repair_cons_create {σ : Type} (E : Env σ) (F : Function) (M : Module) (s : St σ)
    (hB : F.empty = false)
    (h : ∀ a : LocalAnalysis, s.AMap.find (F.id, []) ≠ some (some a)) :
    repair E (F :: M) s = repair E M (repairOne E F s) := by
  rw [repair]
  simp only [hB, Bool.not_false, if_true]
  rcases hf : s.AMap.find (F.id, []) with _ | _ | a
  · rfl
  · rfl
  · exact absurd hf (h a)

theorem steps_refl {σ : Type} (E : Env σ) (M : Module) (s : St σ) : Steps E M s s :=
  Relation.ReflTransGen.refl

theorem steps_trans {σ : Type} (E : Env σ) (M : Module) {a b c : St σ}
    (h1 : Steps E M a b) (h2 : Steps E M b c) : Steps E M a c :=
  Relation.ReflTransGen.trans h1 h2

theorem steps_single {σ : Type} (E : Env σ) (M : Module) {a b : St σ}
    (h : Step E M a b) : Steps E M a b :=
  Relation.ReflTransGen.single h

theorem runTasks_steps {σ : Type} (E : Env σ) (M : Module) (swallow : Bool) (Ks : List Key)
    (s : St σ) : Steps E M s (runTasks E swallow Ks s) := by
  induction Ks generalizing s with
  | nil => exact steps_refl E M s
  | cons K Ks ih =>
    unfold runTasks
    split
    · rename_i s' h
      exact steps_trans E M (steps_single E M (Step.task K s s' h)) (ih s')
    · split
      · exact ih s
      · exact steps_single E M (Step.thrown s)

theorem doWhile_steps {σ : Type} (E : Env σ) (M : Module) (swallow : Bool)
    (CSRound Count : Nat) (Ks : List Key) (s : St σ) :
    Steps E M s (doWhile E swallow CSRound Count Ks s) := by
  apply doWhile_invariant E swallow CSRound (fun s' => Steps E M s s') ?_ ?_
    (CSRound - Count) Count Ks s rfl (steps_refl E M s)
  · intro s' Ks' hs'
    exact steps_trans E M hs' (steps_trans E M (steps_single E M (Step.beginRound s' Ks'))
      (runTasks_steps E M swallow Ks' _))
  · intro s' hs'
    exact steps_trans E M hs' (steps_single E M (Step.afterRecompute s'))

theorem repair_steps {σ : Type} (E : Env σ) (M M' : Module) (s : St σ)
    (hsub : ∀ F ∈ M', F ∈ M) : Steps E M s (repair E M' s) := by
  induction M' generalizing s with
  | nil => exact steps_refl E M s
  | cons F M' ih =>
    have hsub' : ∀ G ∈ M', G ∈ M := fun G hG => hsub G (List.mem_cons_of_mem _ hG)
    by_cases h : F.empty = true ∨ ∃ a : LocalAnalysis, s.AMap.find (F.id, []) = some (some a)
    · rw [repair_cons_skip E F M' s h]
      exact ih s hsub'
    · have hB : F.empty = false := by
        cases hb : F.empty
        · rfl
        · exact absurd (Or.inl hb) h
      have hn : ∀ a : LocalAnalysis, s.AMap.find (F.id, []) ≠ some (some a) :=
        fun a ha => h (Or.inr ⟨a, ha⟩)
      rw [repair_cons_create E F M' s hB hn]
      exact steps_trans E M
        (steps_single E M (Step.repairOne F s (hsub F (List.mem_cons_self _ _)) hB hn))
        (ih _ hsub')

theorem runOnModule_steps {σ : Type} (E : Env σ) (swallow : Bool)
    (CSRound MaxContextDepth : Nat) (M : Module) (NFA : σ) :
    Steps E M (St.init (seed M ([], [])).1 NFA)
      (runOnModule E swallow CSRound MaxContextDepth M NFA).st := by
  unfold runOnModule
  simp only
  split
  · exact doWhile_steps E M swallow CSRound 1 _ _
  · exact steps_trans E M (doWhile_steps E M swallow CSRound 1 _ _)
      (repair_steps E M M _ (fun F hF => hF))

theorem task_keeps_object {σ : Type} (E : Env σ) (K' K : Key) (s s' : St σ)
    (a : LocalAnalysis) (h : task E K' s = some s') (ha : s.AMap.find K = some (some a)) :
    ∃ a' : LocalAnalysis, s'.AMap.find K = some (some a') ∧ a'.oid = a.oid ∧
      a'.fn = a.fn ∧ a'.ctx = a.ctx := by
  unfold task at h
  split at h
  · cases h
  · rename_i slot hslot
    simp only [Option.some.injEq] at h
    subst h
    by_cases hk : K = K'
    · subst hk
      rw [ha] at hslot
      simp only [Option.some.injEq] at hslot
      subst hslot
      exact ⟨_, find_assign_self _ _ _, rfl, rfl, rfl⟩
    · exact ⟨a, by simp only; rw [find_assign_ne _ _ _ _ hk]; exact ha, rfl, rfl, rfl⟩

theorem step_keeps_object {σ : Type} (E : Env σ) (M : Module) (s s' : St σ)
    (h : Step E M s s') (K : Key) (a : LocalAnalysis)
    (ha : s.AMap.find K = some (some a)) :
    ∃ a' : LocalAnalysis, s'.AMap.find K = some (some a') ∧ a'.oid = a.oid ∧
      a'.fn = a.fn ∧ a'.ctx = a.ctx := by
  cases h with
  | task K' _ _ h => exact task_keeps_object E K' K s s' a h ha
  | thrown => exact ⟨a, ha, rfl, rfl, rfl⟩
  | beginRound _ Ks => exact ⟨a, ha, rfl, rfl, rfl⟩
  | afterRecompute => exact ⟨a, ha, rfl, rfl, rfl⟩
  | repairOne F _ hF hB hnone =>
    have hk : K ≠ (F.id, []) := by
      intro e; subst e; exact hnone a ha
    exact ⟨a, by simp only [repairOne]; rw [find_assign_ne _ _ _ _ hk]; exact ha, rfl, rfl, rfl⟩

theorem steps_keep_object {σ : Type} (E : Env σ) (M : Module) (s s' : St σ)
    (h : Steps E M s s') (K : Key) (a : LocalAnalysis)
    (ha : s.AMap.find K = some (some a)) :
    ∃ a' : LocalAnalysis, s'.AMap.find K = some (some a') ∧ a'.oid = a.oid ∧
      a'.fn = a.fn ∧ a'.ctx = a.ctx := by
  induction h with
  | refl => exact ⟨a, ha, rfl, rfl, rfl⟩
  | tail _ hstep ih =>
    obtain ⟨b, hb, h1, h2, h3⟩ := ih
    obtain ⟨c, hc, g1, g2, g3⟩ := step_keeps_object E M _ _ hstep K b hb
    exact ⟨c, hc, g1.trans h1, g2.trans h2, g3.trans h3⟩

theorem seed_allNull (M : Module) (A : AnalysisMap) (S : List Key)
    (h : ∀ e ∈ A, e.2 = none) : ∀ e ∈ (seed M (A, S)).1, e.2 = none := by
  induction M generalizing A S with
  | nil => exact h
  | cons F M ih =>
    unfold seed
    split
    · apply ih
      intro e he
      rcases mem_assign _ _ _ e he with h1 | h1
      · exact h e h1
      · subst h1; rfl
    · exact ih _ _ h
theorem isSome_find_assign_iff (m : AnalysisMap) (K K' : Key) (v : Option LocalAnalysis) :
    ((m.assign K' v).find K).isSome = true ↔ (m.find K).isSome = true ∨ K = K' := by
  by_cases hk : K = K'
  · subst hk; simp [find_assign_self]
  · rw [find_assign_ne _ _ _ _ hk]
    simp [hk]

theorem mem_find_isSome (m : AnalysisMap) (K : Key) (v : Option LocalAnalysis)
    (h : (K, v) ∈ m) : (m.find K).isSome = true := by
  induction m with
  | nil => cases h
  | cons e m ih =>
    obtain ⟨K', v'⟩ := e
    rw [find_cons]
    by_cases hk : K = K'
    · simp [hk]
    · simp only [hk, if_false]
      rcases List.mem_cons.1 h with h1 | h1
      · exact absurd (Prod.mk.inj h1).1 hk
      · exact ih h1

theorem keysExact_assign (M : Module) (m : AnalysisMap) (K' : Key)
    (v : Option LocalAnalysis) (h : KeysExact M m) (hK : (m.find K').isSome = true) :
    KeysExact M (m.assign K' v) := by
  intro K
  rw [isSome_find_assign_iff]
  constructor
  · rintro (h1 | h1)
    · exact (h K).1 h1
    · subst h1; exact (h K).1 hK
  · intro h1
    exact Or.inl ((h K).2 h1)

theorem step_keysExact {σ : Type} (E : Env σ) (M : Module) (s s' : St σ)
    (h : Step E M s s') (hs : KeysExact M s.AMap) : KeysExact M s'.AMap := by
  cases h with
  | task K' _ _ h =>
    obtain ⟨a, _, hm, _⟩ := task_AMap E K' s s' h
    rw [hm]
    apply keysExact_assign M _ _ _ hs
    have := task_isSome_iff E K' s
    rw [h] at this
    simpa using this.symm
  | thrown => exact hs
  | beginRound _ Ks => exact hs
  | afterRecompute => exact hs
  | repairOne F _ hF hB hnone =>
    exact keysExact_assign M _ _ _ hs ((hs (F.id, [])).2 ⟨F, hF, hB, rfl⟩)

theorem steps_keysExact {σ : Type} (E : Env σ) (M : Module) (s s' : St σ)
    (h : Steps E M s s') (hs : KeysExact M s.AMap) : KeysExact M s'.AMap := by
  induction h with
  | refl => exact hs
  | tail _ hstep ih => exact step_keysExact E M _ _ hstep ih

theorem seed_keys (M : Module) (A : AnalysisMap) (S : List Key) (K : Key) :
    ((seed M (A, S)).1.find K).isSome = true ↔
      (A.find K).isSome = true ∨ ∃ F ∈ M, F.empty = false ∧ K = (F.id, []) := by
  induction M generalizing A S with
  | nil => simp [seed]
  | cons F M ih =>
    unfold seed
    by_cases hB : F.empty = true
    · simp only [hB, Bool.not_true, Bool.false_eq_true, if_false]
      rw [ih]
      constructor
      · rintro (h | ⟨G, hG, hGB, hK⟩)
        · exact Or.inl h
        · exact Or.inr ⟨G, List.mem_cons_of_mem _ hG, hGB, hK⟩
      · rintro (h | ⟨G, hG, hGB, hK⟩)
        · exact Or.inl h
        · rcases List.mem_cons.1 hG with e | e
          · subst e; rw [hB] at hGB; cases hGB
          · exact Or.inr ⟨G, e, hGB, hK⟩
    · have hB' : F.empty = false := by simpa using hB
      simp only [hB', Bool.not_false, if_true]
      rw [ih, isSome_find_assign_iff]
      constructor
      · rintro ((h | h) | ⟨G, hG, hGB, hK⟩)
        · exact Or.inl h
        · exact Or.inr ⟨F, List.mem_cons_self _ _, hB', h⟩
        · exact Or.inr ⟨G, List.mem_cons_of_mem _ hG, hGB, hK⟩
      · rintro (h | ⟨G, hG, hGB, hK⟩)
        · exact Or.inl (Or.inl h)
        · rcases List.mem_cons.1 hG with e | e
          · subst e; exact Or.inl (Or.inr hK)
          · exact Or.inr ⟨G, e, hGB, hK⟩

theorem seed_keysExact (M : Module) : KeysExact M (seed M ([], [])).1 := by
  intro K
  rw [seed_keys]
  simp [find_nil]

theorem functionContexts_empty_of_keysExact (M : Module) (m : AnalysisMap)
    (h : KeysExact M m) (F : Function) (c : Context) (hc : c ∈ functionContexts m F) :
    c = [] := by
  obtain ⟨a, ha⟩ := (mem_functionContexts m F c).1 hc
  obtain ⟨G, _, _, hK⟩ := (h (F.id, c)).1 (mem_find_isSome m _ _ ha)
  exact (Prod.mk.inj hK).2

theorem repair_eq_self {σ : Type} (E : Env σ) (M : Module) (s : St σ)
    (h : ∀ F ∈ M, F.empty = false → ∃ a : LocalAnalysis,
      s.AMap.find (F.id, []) = some (some a)) :
    repair E M s = s := by
  induction M with
  | nil => rfl
  | cons F M ih =>
    have hskip : F.empty = true ∨
        ∃ a : LocalAnalysis, s.AMap.find (F.id, []) = some (some a) := by
      cases hb : F.empty
      · exact Or.inr (h F (List.mem_cons_self _ _) hb)
      · exact Or.inl rfl
    rw [repair_cons_skip E F M s hskip]
    exact ih (fun G hG => h G (List.mem_cons_of_mem _ hG))

theorem first_round_completes {σ : Type} (E : Env σ) (swallow : Bool) (M : Module) (NFA : σ)
    (F : Function) (hF : F ∈ M) (hB : F.empty = false) :
    HasCompleted (runTasks E swallow (seed M ([], [])).2
      ((St.init (seed M ([], [])).1 NFA).beginRound (seed M ([], [])).2)).AMap (F.id, []) :=
  (runTasks_slots E swallow _ _ (seed_slots M [] [] (fun K hK => by cases hK))).2 _
    (seed_covers M [] [] F hF hB).1

theorem loop_completes {σ : Type} (E : Env σ) (swallow : Bool) (CSRound : Nat) (M : Module)
    (NFA : σ) (F : Function) (hF : F ∈ M) (hB : F.empty = false) :
    HasCompleted (doWhile E swallow CSRound 1 (seed M ([], [])).2
      (St.init (seed M ([], [])).1 NFA)).AMap (F.id, []) := by
  apply doWhile_after_first_round E swallow CSRound (fun s => HasCompleted s.AMap (F.id, []))
  · intro s Ks hs
    exact runTasks_hasCompleted E swallow Ks _ _ hs
  · intro s hs
    exact hs
  · exact first_round_completes E swallow M NFA F hF hB

theorem doWhile_repaired {σ : Type} (E : Env σ) (swallow : Bool) (CSRound Count : Nat)
    (Ks : List Key) (s : St σ) :
    (doWhile E swallow CSRound Count Ks s).repaired = s.repaired ∧
    s.nextOid ≤ (doWhile E swallow CSRound Count Ks s).nextOid := by
  apply doWhile_invariant E swallow CSRound
    (fun s' => s'.repaired = s.repaired ∧ s.nextOid ≤ s'.nextOid) ?_ ?_
    (CSRound - Count) Count Ks s rfl ⟨rfl, Nat.le_refl _⟩
  · intro s' Ks' hs'
    refine ⟨(runTasks_frame E swallow Ks' _).2.2.trans hs'.1, ?_⟩
    have hmono : ∀ (Ks : List Key) (t : St σ), t.nextOid ≤ (runTasks E swallow Ks t).nextOid := by
      intro Ks
      induction Ks with
      | nil => intro t; exact Nat.le_refl _
      | cons K Ks ih =>
        intro t
        unfold runTasks
        split
        · rename_i t' ht
          refine Nat.le_trans ?_ (ih t')
          unfold task at ht
          split at ht
          · cases ht
          · simp only [Option.some.injEq] at ht
            subst ht
            simp only
            split <;> omega
        · split
          · exact ih t
          · exact Nat.le_refl _
    exact Nat.le_trans hs'.2 (hmono Ks' (s'.beginRound Ks'))
  · intro s' hs'
    exact hs'

/-! ## The cache during a run: theorems -/

/-- C12: from the entry of the loop on, the map is append-only.  Every step of
a run (a task, a thrown exception, the entry into a round, a call of
`recompute`, a creation by the repair loop) leaves a key that holds an analysis
holding the same object (same identity, function and context); the loop, a
round of tasks and the repair loop are made of such steps, and so is the whole
run from the seeded map, in which no analysis exists yet; and a `mayNull`
query leaves the map as it is (the aggregation only makes such queries). -/
theorem cache_append_only {σ : Type} (E : Env σ) (swallow : Bool)
    (CSRound MaxContextDepth : Nat) (M : Module) (NFA : σ) :
    (∀ (s s' : St σ), Steps E M s s' → ∀ (K : Key) (a : LocalAnalysis),
      s.AMap.find K = some (some a) →
      ∃ a' : LocalAnalysis, s'.AMap.find K = some (some a') ∧ a'.oid = a.oid ∧
        a'.fn = a.fn ∧ a'.ctx = a.ctx) ∧
    (∀ (Ks : List Key) (s : St σ), Steps E M s (runTasks E swallow Ks s)) ∧
    (∀ (Count : Nat) (Ks : List Key) (s : St σ),
      Steps E M s (doWhile E swallow CSRound Count Ks s)) ∧
    (∀ s : St σ, Steps E M s (repair E M s)) ∧
    Steps E M (St.init (seed M ([], [])).1 NFA)
      (runOnModule E swallow CSRound MaxContextDepth M NFA).st ∧
    (∀ e ∈ (seed M ([], [])).1, e.2 = none) ∧
    (∀ (s : St σ) (p : Value) (i : Instruction) (c : Context),
      (mayNullOp E MaxContextDepth s.NFA s.AMap p i c).AMap = s.AMap) :=
  ⟨fun s s' h K a ha => steps_keep_object E M s s' h K a ha,
   fun Ks s => runTasks_steps E M swallow Ks s,
   fun Count Ks s => doWhile_steps E M swallow CSRound Count Ks s,
   fun s => repair_steps E M M s (fun F hF => hF),
   runOnModule_steps E swallow CSRound MaxContextDepth M NFA,
   seed_allNull M [] [] (fun e he => by cases he),
   fun s p i c => mayNullOp_AMap E MaxContextDepth s.NFA s.AMap p i c⟩

/-- C19: when the first round is over every function of the module with a
body holds a completed empty-context analysis; so the repair loop changes
nothing: it returns the state the loop ended in, the run ends in that state,
no function is repaired and no object is allocated after the loop. -/
theorem repair_pass_is_idle {σ : Type} (E : Env σ) (swallow : Bool)
    (CSRound MaxContextDepth : Nat) (M : Module) (NFA : σ) :
    (∀ F ∈ M, F.empty = false →
      HasCompleted (runTasks E swallow (seed M ([], [])).2
        ((St.init (seed M ([], [])).1 NFA).beginRound (seed M ([], [])).2)).AMap (F.id, [])) ∧
    repair E M (doWhile E swallow CSRound 1 (seed M ([], [])).2
        (St.init (seed M ([], [])).1 NFA)) =
      doWhile E swallow CSRound 1 (seed M ([], [])).2 (St.init (seed M ([], [])).1 NFA) ∧
    (runOnModule E swallow CSRound MaxContextDepth M NFA).st =
      doWhile E swallow CSRound 1 (seed M ([], [])).2 (St.init (seed M ([], [])).1 NFA) ∧
    (runOnModule E swallow CSRound MaxContextDepth M NFA).st.repaired = [] := by
  have hrep : repair E M (doWhile E swallow CSRound 1 (seed M ([], [])).2
        (St.init (seed M ([], [])).1 NFA)) =
      doWhile E swallow CSRound 1 (seed M ([], [])).2 (St.init (seed M ([], [])).1 NFA) := by
    apply repair_eq_self
    intro F hF hB
    obtain ⟨a, ha, _⟩ := loop_completes E swallow CSRound M NFA F hF hB
    exact ⟨a, ha⟩
  have hst : (runOnModule E swallow CSRound MaxContextDepth M NFA).st =
      doWhile E swallow CSRound 1 (seed M ([], [])).2 (St.init (seed M ([], [])).1 NFA) := by
    unfold runOnModule
    simp only
    split
    · rfl
    · exact hrep
  refine ⟨fun F hF hB => first_round_completes E swallow M NFA F hF hB, hrep, hst, ?_⟩
  rw [hst, (doWhile_repaired E swallow CSRound 1 _ _).1]
  rfl

/-- C20: at the entry of the loop the key set of the map is exactly the set of
the pairs of a function of the module with a body and the empty context, and
it stays so in every state the run passes through from there (the state the
run ends in is one of them), so the contexts the aggregation collects for a
function are all empty; while the map is being seeded its keys are already of
that form, no key being added for a declaration or a non-empty context. -/
theorem keys_are_empty_contexts {σ : Type} (E : Env σ) (swallow : Bool)
    (CSRound MaxContextDepth : Nat) (M : Module) (NFA : σ) :
    KeysExact M (seed M ([], [])).1 ∧
    (∀ s : St σ, Steps E M (St.init (seed M ([], [])).1 NFA) s →
      KeysExact M s.AMap ∧
      ∀ (F : Function) (c : Context), c ∈ functionContexts s.AMap F → c = []) ∧
    Steps E M (St.init (seed M ([], [])).1 NFA)
      (runOnModule E swallow CSRound MaxContextDepth M NFA).st ∧
    (∀ (M1 M2 : Module), M = M1 ++ M2 → ∀ K : Key,
      ((seed M1 ([], [])).1.find K).isSome = true →
      ∃ F ∈ M, F.empty = false ∧ K = (F.id, [])) := by
  refine ⟨seed_keysExact M, fun s hs => ?_,
    runOnModule_steps E swallow CSRound MaxContextDepth M NFA, fun M1 M2 hM K hK => ?_⟩
  · have hk : KeysExact M s.AMap := steps_keysExact E M _ s hs (seed_keysExact M)
    exact ⟨hk, fun F c hc => functionContexts_empty_of_keysExact M _ hk F c hc⟩
  · obtain ⟨F, hF, hB, hKe⟩ := (seed_keysExact M1 K).1 hK
    exact ⟨F, by rw [hM]; exact List.mem_append_left _ hF, hB, hKe⟩

/-- The theorem of C12 at a concrete step: a round that runs the task of the
key `(0, [])` again leaves the object `lncaEmpty` under that key. -/
theorem cache_append_only_witness :
    ∃ a' : LocalAnalysis,
      (runTasks envQuiet true [(0, [])] (St.init [((0, []), some lncaEmpty)] 0)).AMap.find
        (0, []) = some (some a') ∧
      a'.oid = lncaEmpty.oid ∧ a'.fn = lncaEmpty.fn ∧ a'.ctx = lncaEmpty.ctx :=
  (cache_append_only envQuiet true 1 3 [fnF] 0).1 _ _
    ((cache_append_only envQuiet true 1 3 [fnF] 0).2.1 [(0, [])]
      (St.init [((0, []), some lncaEmpty)] 0))
    (0, []) lncaEmpty rfl

/-- The theorem of C19 at a concrete run of three rounds. -/
theorem repair_pass_is_idle_witness :
    (runOnModule envQuiet false 3 3 [fnDecl, fnF] 0).st.repaired = [] :=
  (repair_pass_is_idle envQuiet false 3 3 [fnDecl, fnF] 0).2.2.2

/-- The theorem of C20 at a concrete run: `recompute` emits the key
`(0, [csA])`, and at the end of the run that key is in the map only if it is
the empty-context key of a function with a body (which it is not). -/
theorem keys_are_empty_contexts_witness :
    ((runOnModule envDirty true 2 3 [fnDecl, fnF] 0).st.AMap.find (0, [csA])).isSome = true ↔
      ∃ F ∈ [fnDecl, fnF], F.empty = false ∧ ((0, [csA]) : Key) = (F.id, []) :=
  ((keys_are_empty_contexts envDirty true 2 3 [fnDecl, fnF] 0).2.1 _
    (keys_are_empty_contexts envDirty true 2 3 [fnDecl, fnF] 0).2.2.1).1 (0, [csA])

/-! ## The contexts the pass uses -/

theorem limitContext_length_le (k : Nat) (c : Context) : (limitContext k c).length ≤ k := by
  rw [limitContext_eq_drop, List.length_drop]
  omega

theorem mayNullOp_contexts {σ : Type} (E : Env σ) (k : Nat) (NFA : σ) (AMap : AnalysisMap)
    (p : Value) (i : Instruction) (c : Context) :
    (∀ c' ∈ (mayNullOp E k NFA AMap p i c).queried, c'.length ≤ k) ∧
    (∀ K ∈ (mayNullOp E k NFA AMap p i c).lookedUp, K.2.length ≤ k) := by
  have hl := limitContext_length_le k c
  unfold mayNullOp AnalysisMap.findOp
  by_cases hO : E.notNull NFA p (limitContext k c) = true
  · simp [hO, hl]
  · rcases h1 : AMap.find (i.getFunction, limitContext k c) with _ | _ | a <;>
      rcases h2 : AMap.find (i.getFunction, []) with _ | _ | b <;>
      simp [hO, h1, h2, hl]

theorem builtForKey_assign (m : AnalysisMap) (K : Key) (a : LocalAnalysis)
    (h : BuiltForKey m) (ha : a.fn = K.1 ∧ a.ctx = K.2) :
    BuiltForKey (m.assign K (some a)) := by
  intro K' b hb
  by_cases hk : K' = K
  · subst hk
    rw [find_assign_self] at hb
    simp only [Option.some.injEq] at hb
    subst hb
    exact ha
  · rw [find_assign_ne _ _ _ _ hk] at hb
    exact h K' b hb

theorem step_builtForKey {σ : Type} (E : Env σ) (M : Module) (s s' : St σ)
    (h : Step E M s s') (hs : BuiltForKey s.AMap) : BuiltForKey s'.AMap := by
  cases h with
  | task K' _ _ h =>
    unfold task at h
    split at h
    · cases h
    · rename_i slot hslot
      simp only [Option.some.injEq] at h
      subst h
      apply builtForKey_assign _ _ _ hs
      cases slot with
      | none => exact ⟨rfl, rfl⟩
      | some a => exact hs K' a hslot
  | thrown => exact hs
  | beginRound _ Ks => exact hs
  | afterRecompute => exact hs
  | repairOne F _ hF hB hnone =>
    exact builtForKey_assign _ _ _ hs ⟨rfl, rfl⟩

theorem steps_builtForKey {σ : Type} (E : Env σ) (M : Module) (s s' : St σ)
    (h : Steps E M s s') (hs : BuiltForKey s.AMap) : BuiltForKey s'.AMap := by
  induction h with
  | refl => exact hs
  | tail _ hstep ih => exact step_builtForKey E M _ _ hstep ih

theorem seed_builtForKey (M : Module) : BuiltForKey (seed M ([], [])).1 := by
  intro K a ha
  have := seed_allNull M [] [] (fun e he => by cases he) _ (find_mem _ _ _ ha)
  cases this

theorem mem_foldl_setInsert (d S : List Key) (K : Key) :
    K ∈ d.foldl setInsert S ↔ K ∈ S ∨ K ∈ d := by
  induction d generalizing S with
  | nil => simp
  | cons x d ih =>
    rw [List.foldl_cons, ih, mem_setInsert]
    simp only [List.mem_cons]
    constructor
    · rintro ((h | h) | h)
      · exact Or.inl h
      · exact Or.inr (Or.inl h)
      · exact Or.inr (Or.inr h)
    · rintro (h | h | h)
      · exact Or.inl (Or.inl h)
      · exact Or.inl (Or.inr h)
      · exact Or.inr h

theorem mem_toSet (d : List Key) (K : Key) : K ∈ toSet d ↔ K ∈ d := by
  unfold toSet
  rw [mem_foldl_setInsert]
  simp

theorem seed_pending (M : Module) (A : AnalysisMap) (S : List Key) (K : Key)
    (h : K ∈ (seed M (A, S)).2) : K ∈ S ∨ ∃ F ∈ M, F.empty = false ∧ K = (F.id, []) := by
  induction M generalizing A S with
  | nil => exact Or.inl h
  | cons F M ih =>
    unfold seed at h
    by_cases hB : F.empty = true
    · simp only [hB, Bool.not_true, Bool.false_eq_true, if_false] at h
      rcases ih _ _ h with h1 | ⟨G, hG, hGB, hK⟩
      · exact Or.inl h1
      · exact Or.inr ⟨G, List.mem_cons_of_mem _ hG, hGB, hK⟩
    · have hB' : F.empty = false := by simpa using hB
      simp only [hB', Bool.not_false, if_true] at h
      rcases ih _ _ h with h1 | ⟨G, hG, hGB, hK⟩
      · rcases (mem_setInsert _ _ _).1 h1 with h2 | h2
        · exact Or.inl h2
        · exact Or.inr ⟨F, List.mem_cons_self _ _, hB', h2⟩
      · exact Or.inr ⟨G, List.mem_cons_of_mem _ hG, hGB, hK⟩

theorem doWhile_rounds_evals_mono {σ : Type} (E : Env σ) (swallow : Bool)
    (CSRound Count : Nat) (Ks : List Key) (s : St σ) :
    ∀ e ∈ s.evals, e ∈ (doWhile E swallow CSRound Count Ks s).evals := by
  apply doWhile_invariant E swallow CSRound (fun s' => ∀ e ∈ s.evals, e ∈ s'.evals) ?_ ?_
    (CSRound - Count) Count Ks s rfl (fun e he => he)
  · intro s' Ks' hs' e he
    rw [(runTasks_round_logs E swallow Ks' s').2]
    exact hs' e he
  · intro s' hs' e he
    rw [afterRecompute_evals]
    exact List.mem_append_left _ (hs' e he)

/-- Every key of every round of the loop is a key of the set the loop was
entered with, a key of an earlier round, or a key that `recompute` emitted. -/
theorem doWhile_round_keys {σ : Type} (E : Env σ) (swallow : Bool) (CSRound : Nat) :
    ∀ (n Count : Nat) (Ks : List Key) (s : St σ), CSRound - Count = n →
      ∀ K ∈ atKeys (doWhile E swallow CSRound Count Ks s),
        K ∈ atKeys s ∨ K ∈ Ks ∨
        ∃ e ∈ (doWhile E swallow CSRound Count Ks s).evals, K ∈ e.2 := by
  intro n
  induction n with
  | zero =>
    intro Count Ks s hn K hK
    rw [doWhile] at hK ⊢
    have hlt : ¬ Count < CSRound := by omega
    simp only [hlt, if_false] at hK ⊢
    have hf := runTasks_round_logs E swallow Ks s
    have hK' : K ∈ atKeys s ∨ K ∈ Ks := by
      have : K ∈ (s.rounds ++ [Ks]).flatten := by
        split at hK <;> (unfold atKeys at hK; rw [hf.1] at hK; exact hK)
      simpa [atKeys] using this
    rcases hK' with h | h
    · exact Or.inl h
    · exact Or.inr (Or.inl h)
  | succ n ih =>
    intro Count Ks s hn K hK
    rw [doWhile] at hK ⊢
    have hlt : Count < CSRound := by omega
    simp only [hlt, if_true] at hK ⊢
    have hf := runTasks_round_logs E swallow Ks s
    have hbase : ∀ r : St σ, r.rounds = s.rounds ++ [Ks] → K ∈ atKeys r →
        K ∈ atKeys s ∨ K ∈ Ks := by
      intro r hr hKr
      unfold atKeys at hKr
      rw [hr] at hKr
      simpa [atKeys] using hKr
    split at hK
    · rename_i hab
      simp only [hab, if_true]
      rcases hbase _ hf.1 hK with h | h
      · exact Or.inl h
      · exact Or.inr (Or.inl h)
    · rename_i hab
      simp only [hab, if_false]
      split at hK
      · rename_i hch
        simp only [hch, if_true]
        rcases ih (Count + 1) _ _ (by omega) K hK with h | h | h
        · rcases hbase _ (by rw [afterRecompute_rounds]; exact hf.1) h with g | g
          · exact Or.inl g
          · exact Or.inr (Or.inl g)
        · right; right
          refine ⟨((E.recompute (runTasks E swallow Ks (s.beginRound Ks)).NFA).2.1,
            (E.recompute (runTasks E swallow Ks (s.beginRound Ks)).NFA).2.2), ?_,
            (mem_toSet _ _).1 h⟩
          have hpre := (doWhile_rounds_evals_mono E swallow CSRound (Count + 1)
            (toSet (E.recompute (runTasks E swallow Ks (s.beginRound Ks)).NFA).2.2)
            ((runTasks E swallow Ks (s.beginRound Ks)).afterRecompute
              (E.recompute (runTasks E swallow Ks (s.beginRound Ks)).NFA)))
          apply hpre
          rw [afterRecompute_evals]
          simp
        · exact Or.inr (Or.inr h)
      · rename_i hch
        simp only [hch, if_false, Bool.false_eq_true]
        rcases hbase _ (by rw [afterRecompute_rounds]; exact hf.1) hK with h | h
        · exact Or.inl h
        · exact Or.inr (Or.inl h)
/-- The rounds of the run of `envDirty` with cap 2, whatever the depth. -/
theorem run_dirty_rounds (k : Nat) :
    (runOnModule envDirty true 2 k [fnDecl, fnF] 0).st.rounds =
      [[(0, [])], [(0, [csA])]] := by
  simp [runOnModule, doWhile, seed, St.init, St.beginRound, St.afterRecompute, runTasks, task,
    Function.empty, fnF, fnDecl, AnalysisMap.assign, find_cons, find_nil, setInsert, toSet,
    envDirty, repair, repair_frame]

/-- C11 as stated fails: with `MaxContextDepth = 0` and an oracle that emits
the key `(0, [csA])`, the task of round 2 hands that key, whose context has
length 1, to `AnalysisMap.at`: the driver looks the emitted keys up without
truncating them. -/
theorem scheduled_context_exceeds_depth :
    ¬ (∀ K ∈ atKeys (runOnModule envDirty true 2 0 [fnDecl, fnF] 0).st, K.2.length ≤ 0) := by
  intro h
  have hmem : ((0, [csA]) : Key) ∈ atKeys (runOnModule envDirty true 2 0 [fnDecl, fnF] 0).st := by
    unfold atKeys
    rw [run_dirty_rounds]
    simp
  have := h _ hmem
  simp at this

/-- C11, amended: every context `mayNull` hands to `notNull` and every key it
hands to `AnalysisMap.find` has a context of length at most `MaxContextDepth`,
for every requested context; in every state of a run every key that holds an
analysis has the empty context and the analysis was constructed for the empty
context; and every key a task looks up is an empty-context key or a key that
`recompute` emitted, taken as it was emitted. -/
theorem contexts_of_queries_bounded {σ : Type} (E : Env σ) (swallow : Bool)
    (CSRound MaxContextDepth : Nat) (M : Module) (NFA : σ) :
    (∀ (s : St σ) (p : Value) (i : Instruction) (c : Context),
      (∀ c' ∈ (mayNullOp E MaxContextDepth s.NFA s.AMap p i c).queried,
        c'.length ≤ MaxContextDepth) ∧
      (∀ K ∈ (mayNullOp E MaxContextDepth s.NFA s.AMap p i c).lookedUp,
        K.2.length ≤ MaxContextDepth)) ∧
    (∀ s : St σ, Steps E M (St.init (seed M ([], [])).1 NFA) s →
      ∀ (K : Key) (a : LocalAnalysis), s.AMap.find K = some (some a) →
        K.2 = [] ∧ a.ctx = []) ∧
    (∀ K ∈ atKeys (runOnModule E swallow CSRound MaxContextDepth M NFA).st,
      K.2 = [] ∨
      ∃ e ∈ (runOnModule E swallow CSRound MaxContextDepth M NFA).st.evals, K ∈ e.2) := by
  refine ⟨fun s p i c => mayNullOp_contexts E MaxContextDepth s.NFA s.AMap p i c,
    fun s hs K a ha => ?_, ?_⟩
  · have hk := steps_keysExact E M _ s hs (seed_keysExact M)
    have hb := steps_builtForKey E M _ s hs (seed_builtForKey M)
    obtain ⟨F, _, _, hK⟩ := (hk K).1 (by rw [ha]; rfl)
    have h2 : K.2 = [] := by rw [hK]
    exact ⟨h2, by rw [(hb K a ha).2, h2]⟩
  · have hr : ∀ r : St σ,
        r.rounds = (doWhile E swallow CSRound 1 (seed M ([], [])).2
          (St.init (seed M ([], [])).1 NFA)).rounds →
        r.evals = (doWhile E swallow CSRound 1 (seed M ([], [])).2
          (St.init (seed M ([], [])).1 NFA)).evals →
        ∀ K ∈ atKeys r, K.2 = [] ∨ ∃ e ∈ r.evals, K ∈ e.2 := by
      intro r hr he K hK
      unfold atKeys at hK
      rw [hr] at hK
      rw [he]
      rcases doWhile_round_keys E swallow CSRound (CSRound - 1) 1 _ _ rfl K hK with h | h | h
      · simp [atKeys, St.init] at h
      · rcases seed_pending M [] [] K h with h1 | ⟨F, _, _, hKe⟩
        · cases h1
        · left; rw [hKe]
      · exact Or.inr h
    unfold runOnModule
    simp only
    split
    · exact hr _ rfl rfl
    · exact hr _ (repair_frame E M _).2.1 (repair_frame E M _).2.2

/-- The amended C11 at a concrete query: with depth 2 the context handed to
the oracle for the call string `[csA, csB, csC]` has length at most 2. -/
theorem contexts_of_queries_bounded_witness :
    (limitContext 2 [csA, csB, csC]).length ≤ 2 :=
  ((contexts_of_queries_bounded envQuiet true 1 2 [fnF] 0).1
    (St.init [((0, []), some lncaEmpty)] 0) ptrP instI [csA, csB, csC]).1
    (limitContext 2 [csA, csB, csC])
    (by simp [mayNullOp, envQuiet, St.init, AnalysisMap.findOp, find_cons, find_nil,
      limitContext, instI])

/-! ## The number of runs of an analysis -/

theorem task_runsAt {σ : Type} (E : Env σ) (K' K : Key) (s s' : St σ)
    (h : task E K' s = some s') :
    runsAt s'.AMap K = runsAt s.AMap K + (if K' = K then 1 else 0) := by
  unfold task at h
  split at h
  · cases h
  · rename_i slot hslot
    simp only [Option.some.injEq] at h
    subst h
    by_cases hk : K' = K
    · subst hk
      simp only [runsAt, find_assign_self, hslot, if_true]
      cases slot <;> rfl
    · have hk' : K ≠ K' := fun e => hk e.symm
      simp only [runsAt, find_assign_ne _ _ _ _ hk', hk, if_false, Nat.add_zero]

theorem runTasks_slot {σ : Type} (E : Env σ) (swallow : Bool) (Ks : List Key) (s : St σ)
    (K : Key) (h : (s.AMap.find K).isSome = true) :
    ((runTasks E swallow Ks s).AMap.find K).isSome = true := by
  induction Ks generalizing s with
  | nil => exact h
  | cons K' Ks ih =>
    unfold runTasks
    split
    · rename_i s' hs'
      exact ih s' (task_slots E K' K s s' hs' h)
    · split
      · exact ih s h
      · exact h

theorem runTasks_aborted_false {σ : Type} (E : Env σ) (swallow : Bool) (Ks : List Key)
    (s : St σ) (h : (runTasks E swallow Ks s).aborted = false) : s.aborted = false := by
  induction Ks generalizing s with
  | nil => exact h
  | cons K' Ks ih =>
    unfold runTasks at h
    split at h
    · rename_i s' hs'
      obtain ⟨a, _, _, hab, _⟩ := task_AMap E K' s s' hs'
      rw [← hab]
      exact ih s' h
    · split at h
      · exact ih s h
      · cases h

theorem runTasks_runsAt {σ : Type} (E : Env σ) (swallow : Bool) (Ks : List Key) (s : St σ)
    (K : Key) (hK : (s.AMap.find K).isSome = true) (hn : Ks.Nodup)
    (h : (runTasks E swallow Ks s).aborted = false) :
    runsAt (runTasks E swallow Ks s).AMap K =
      runsAt s.AMap K + (if K ∈ Ks then 1 else 0) := by
  induction Ks generalizing s with
  | nil => rfl
  | cons K' Ks ih =>
    have hn' : Ks.Nodup := (List.nodup_cons.1 hn).2
    have hK'n : K' ∉ Ks := (List.nodup_cons.1 hn).1
    rcases hs' : task E K' s with _ | s'
    · have hne : K ≠ K' := by
        intro e
        subst e
        have := task_isSome_iff E K s
        rw [hs', hK] at this
        cases this
      have e : runTasks E swallow (K' :: Ks) s =
          if swallow = true then runTasks E swallow Ks s else { s with aborted := true } := by
        rw [runTasks, hs']
      rw [e] at h ⊢
      by_cases hsw : swallow = true
      · rw [if_pos hsw] at h ⊢
        rw [ih s hK hn' h]
        simp [hne]
      · rw [if_neg hsw] at h
        cases h
    · have e : runTasks E swallow (K' :: Ks) s = runTasks E swallow Ks s' := by
        rw [runTasks, hs']
      rw [e] at h ⊢
      rw [ih s' (task_slots E K' K s s' hs' hK) hn' h, task_runsAt E K' K s s' hs']
      by_cases hk : K' = K
      · subst hk
        simp [hK'n]
      · have hk' : ¬ K = K' := fun e => hk e.symm
        simp [hk, hk']

/-- A property of the state that every round whose pending set is good
preserves, and every call of `recompute`, holds when the loop ends, when the
loop is entered with a good pending set and every set `recompute` fills is
good. -/
theorem doWhile_invariant_pending {σ : Type} (E : Env σ) (swallow : Bool) (CSRound : Nat)
    (P : St σ → Prop) (Good : List Key → Prop)
    (hgood : ∀ NFA : σ, Good (toSet (E.recompute NFA).2.2))
    (hround : ∀ (s : St σ) (Ks : List Key), P s → Good Ks →
      P (runTasks E swallow Ks (s.beginRound Ks)))
    (heval : ∀ s : St σ, P s → P (s.afterRecompute (E.recompute s.NFA))) :
    ∀ (n Count : Nat) (Ks : List Key) (s : St σ), CSRound - Count = n → Good Ks → P s →
      P (doWhile E swallow CSRound Count Ks s) := by
  intro n
  induction n with
  | zero =>
    intro Count Ks s hn hKs hs
    rw [doWhile]
    have hlt : ¬ Count < CSRound := by omega
    simp only [hlt, if_false]
    split <;> exact hround s Ks hs hKs
  | succ n ih =>
    intro Count Ks s hn hKs hs
    rw [doWhile]
    have hlt : Count < CSRound := by omega
    simp only [hlt, if_true]
    split
    · exact hround s Ks hs hKs
    · split
      · exact ih (Count + 1) _ _ (by omega) (hgood _) (heval _ (hround s Ks hs hKs))
      · exact heval _ (hround s Ks hs hKs)

theorem nodup_setInsert (S : List Key) (K : Key) (h : S.Nodup) : (setInsert S K).Nodup := by
  unfold setInsert
  split
  · exact h
  · rename_i hK
    rw [List.nodup_append]
    refine ⟨h, List.nodup_singleton K, ?_⟩
    intro a ha hb
    rw [List.mem_singleton] at hb
    subst hb
    exact hK ha

theorem nodup_toSet (d : List Key) : (toSet d).Nodup := by
  unfold toSet
  have : ∀ S : List Key, S.Nodup → (d.foldl setInsert S).Nodup := by
    induction d with
    | nil => intro S h; exact h
    | cons x d ih => intro S h; exact ih _ (nodup_setInsert S x h)
  exact this [] List.nodup_nil

theorem nodup_seed (M : Module) (A : AnalysisMap) (S : List Key) (h : S.Nodup) :
    (seed M (A, S)).2.Nodup := by
  induction M generalizing A S with
  | nil => exact h
  | cons F M ih =>
    unfold seed
    split
    · exact ih _ _ (nodup_setInsert S _ h)
    · exact ih _ _ h

theorem runOnModule_st {σ : Type} (E : Env σ) (swallow : Bool)
    (CSRound MaxContextDepth : Nat) (M : Module) (NFA : σ) :
    (runOnModule E swallow CSRound MaxContextDepth M NFA).st =
      doWhile E swallow CSRound 1 (seed M ([], [])).2 (St.init (seed M ([], [])).1 NFA) := by
  unfold runOnModule
  simp only
  split
  · rfl
  · apply repair_eq_self
    intro F hF hB
    obtain ⟨a, ha, _⟩ := loop_completes E swallow CSRound M NFA F hF hB
    exact ⟨a, ha⟩

theorem doWhile_runs {σ : Type} (E : Env σ) (swallow : Bool) (CSRound Count : Nat)
    (Ks : List Key) (s : St σ) (K : Key) (hK : (s.AMap.find K).isSome = true)
    (hKs : Ks.Nodup) (hnd : ∀ Ks' ∈ s.rounds, Ks'.Nodup)
    (hs : s.aborted = false →
      runsAt s.AMap K = (s.rounds.filter fun Ks' => decide (K ∈ Ks')).length) :
    (∀ Ks' ∈ (doWhile E swallow CSRound Count Ks s).rounds, Ks'.Nodup) ∧
    ((doWhile E swallow CSRound Count Ks s).aborted = false →
      runsAt (doWhile E swallow CSRound Count Ks s).AMap K =
        ((doWhile E swallow CSRound Count Ks s).rounds.filter
          fun Ks' => decide (K ∈ Ks')).length) := by
  have h := doWhile_invariant_pending E swallow CSRound
    (fun s' => (s'.AMap.find K).isSome = true ∧ (∀ Ks' ∈ s'.rounds, Ks'.Nodup) ∧
      (s'.aborted = false →
        runsAt s'.AMap K = (s'.rounds.filter fun Ks' => decide (K ∈ Ks')).length))
    List.Nodup (fun _ => nodup_toSet _) ?_ ?_ (CSRound - Count) Count Ks s rfl hKs ⟨hK, hnd, hs⟩
  · exact ⟨h.2.1, h.2.2⟩
  · intro s' Ks' ⟨h1, h2, h3⟩ hg
    have hf := runTasks_round_logs E swallow Ks' s'
    refine ⟨runTasks_slot E swallow Ks' (s'.beginRound Ks') K h1, ?_, fun hab => ?_⟩
    · intro Ks'' hmem
      rw [hf.1] at hmem
      rcases List.mem_append.1 hmem with g | g
      · exact h2 Ks'' g
      · rw [List.mem_singleton] at g
        subst g
        exact hg
    · have hab' : s'.aborted = false :=
        runTasks_aborted_false E swallow Ks' (s'.beginRound Ks') hab
      rw [runTasks_runsAt E swallow Ks' (s'.beginRound Ks') K h1 hg hab, hf.1,
        List.filter_append,
        List.length_append]
      have : runsAt (s'.beginRound Ks').AMap K = runsAt s'.AMap K := rfl
      rw [this, h3 hab']
      by_cases hKm : K ∈ Ks' <;> simp [hKm]
  · intro s' hs'
    exact hs'

/-! ## The number of runs: theorems -/

/-- The final map of the run of `envAgain` with cap 2: the analysis under
`(0, [])` has been run twice. -/
theorem run_again_runs :
    runsAt (runOnModule envAgain true 2 3 [fnDecl, fnF] 0).st.AMap (0, []) = 2 ∧
    (runOnModule envAgain true 2 3 [fnDecl, fnF] 0).st.rounds = [[(0, [])], [(0, [])]] := by
  simp [runOnModule, doWhile, seed, St.init, St.beginRound, St.afterRecompute, runTasks, task,
    Function.empty, fnF, fnDecl, AnalysisMap.assign, find_cons, find_nil, setInsert, toSet,
    envAgain, repair, repair_frame, runsAt, LocalAnalysis.create]

/-- C13 as stated fails: in the run of `envAgain` with cap 2 the oracle emits
the key `(0, [])` again after round 1, the task of round 2 calls `run()` on
the analysis that round 1 created, and the object the map holds at the end
has been run twice. -/
theorem run_executed_twice :
    ¬ (∀ (K : Key) (a : LocalAnalysis),
      (runOnModule envAgain true 2 3 [fnDecl, fnF] 0).st.AMap.find K = some (some a) →
      a.runs = 1) := by
  intro h
  have h2 := run_again_runs.1
  unfold runsAt at h2
  split at h2
  · rename_i a ha
    have := h (0, []) a ha
    omega
  · cases h2

/-- C13, amended: every analysis the map holds at the end of `runOnModule` has
had `run()` executed at least once, and, unless an exception ended the run,
exactly once for each round whose pending set held its key (a pending set
holds no key twice): an analysis whose key is emitted again in a later round
is run again. -/
theorem run_once_per_round {σ : Type} (E : Env σ) (swallow : Bool)
    (CSRound MaxContextDepth : Nat) (M : Module) (NFA : σ) :
    (∀ (K : Key) (a : LocalAnalysis),
      (runOnModule E swallow CSRound MaxContextDepth M NFA).st.AMap.find K = some (some a) →
      1 ≤ a.runs ∧
      ((runOnModule E swallow CSRound MaxContextDepth M NFA).st.aborted = false →
        a.runs = ((runOnModule E swallow CSRound MaxContextDepth M NFA).st.rounds.filter
          fun Ks => decide (K ∈ Ks)).length)) ∧
    (∀ Ks ∈ (runOnModule E swallow CSRound MaxContextDepth M NFA).st.rounds, Ks.Nodup) := by
  rw [runOnModule_st]
  have hnull : ∀ K : Key, runsAt (seed M ([], [])).1 K = 0 := by
    intro K
    unfold runsAt
    split
    · rename_i a ha
      have := seed_allNull M [] [] (fun e he => by cases he) _ (find_mem _ _ _ ha)
      cases this
    · rfl
  have hall : AllCompleted (doWhile E swallow CSRound 1 (seed M ([], [])).2
      (St.init (seed M ([], [])).1 NFA)).AMap :=
    doWhile_allCompleted E swallow CSRound 1 _ _
      (seed_allCompleted M [] [] (fun e he => by cases he))
  have hkeys := steps_keysExact E M _ _ (doWhile_steps E M swallow CSRound 1
    (seed M ([], [])).2 (St.init (seed M ([], [])).1 NFA)) (seed_keysExact M)
  refine ⟨fun K a ha => ⟨hall _ (find_mem _ _ _ ha) a rfl, fun hab => ?_⟩, ?_⟩
  · have hslot : ((St.init (seed M ([], [])).1 NFA).AMap.find K).isSome = true :=
      (seed_keysExact M K).2 ((hkeys K).1 (by rw [ha]; rfl))
    have h := (doWhile_runs E swallow CSRound 1 (seed M ([], [])).2
      (St.init (seed M ([], [])).1 NFA) K hslot (nodup_seed M [] [] List.nodup_nil)
      (fun Ks' h' => by cases h') (fun _ => hnull K)).2 hab
    unfold runsAt at h
    rw [ha] at h
    exact h
  · intro Ks hKs
    by_cases hne : ∃ K : Key, ((St.init (seed M ([], [])).1 NFA).AMap.find K).isSome = true
    · obtain ⟨K, hslot⟩ := hne
      exact (doWhile_runs E swallow CSRound 1 (seed M ([], [])).2
        (St.init (seed M ([], [])).1 NFA) K hslot (nodup_seed M [] [] List.nodup_nil)
        (fun Ks' h' => by cases h') (fun _ => hnull K)).1 Ks hKs
    · exact doWhile_invariant_pending E swallow CSRound
        (fun s' => ∀ Ks' ∈ s'.rounds, Ks'.Nodup) List.Nodup (fun _ => nodup_toSet _)
        (fun s' Ks' h1 hg Ks'' hmem => by
          rw [(runTasks_round_logs E swallow Ks' s').1] at hmem
          rcases List.mem_append.1 hmem with g | g
          · exact h1 Ks'' g
          · rw [List.mem_singleton] at g
            subst g
            exact hg)
        (fun s' hs' => hs') (CSRound - 1) 1 _ _ rfl (nodup_seed M [] [] List.nodup_nil)
        (fun Ks' h' => by cases h') Ks hKs

/-- The amended C13 at the run of `envAgain`: the analysis under `(0, [])` has
been run twice, once for each of the two rounds that held its key. -/
theorem run_once_per_round_witness :
    ∃ a : LocalAnalysis,
      (runOnModule envAgain true 2 3 [fnDecl, fnF] 0).st.AMap.find (0, []) = some (some a) ∧
      1 ≤ a.runs ∧ a.runs = 2 := by
  have h2 := run_again_runs.1
  unfold runsAt at h2
  split at h2
  · rename_i a ha
    exact ⟨a, ha, ((run_once_per_round envAgain true 2 3 [fnDecl, fnF] 0).1 (0, []) a ha).1, h2⟩
  · cases h2

/-! ## The report: theorems -/

theorem occOfBlock_nil_of_no_pointer (BB : List Instruction)
    (h : ∀ I ∈ BB, ∀ Op ∈ I.operands, Op.isPointerTy = false) : occOfBlock BB = [] := by
  induction BB with
  | nil => rfl
  | cons I BB ih =>
    have h1 : occOfOperands I I.operands = [] := by
      unfold occOfOperands
      rw [List.map_eq_nil_iff, List.filter_eq_nil_iff]
      intro Op hOp
      simp [h I (List.mem_cons_self _ _) Op hOp]
    simp only [occOfBlock, h1, List.nil_append]
    exact ih (fun J hJ => h J (List.mem_cons_of_mem _ hJ))

theorem ptrOccurrences_nil_of_no_pointer (blocks : List (List Instruction))
    (h : ∀ BB ∈ blocks, ∀ I ∈ BB, ∀ Op ∈ I.operands, Op.isPointerTy = false) :
    ptrOccurrences blocks = [] := by
  induction blocks with
  | nil => rfl
  | cons BB blocks ih =>
    simp only [ptrOccurrences, occOfBlock_nil_of_no_pointer BB (h BB (List.mem_cons_self _ _)),
      List.nil_append]
    exact ih (fun B hB => h B (List.mem_cons_of_mem _ hB))

theorem moduleOccurrences_nil (M : Module)
    (h : ∀ F ∈ M, F.empty = false → ptrOccurrences F.blocks = []) :
    moduleOccurrences M = [] := by
  induction M with
  | nil => rfl
  | cons F M ih =>
    unfold moduleOccurrences
    rw [ih (fun G hG => h G (List.mem_cons_of_mem _ hG))]
    by_cases hB : F.empty = true
    · simp [hB]
    · have hB' : F.empty = false := by simpa using hB
      simp [hB', h F (List.mem_cons_self _ _) hB']

theorem mem_statsAssign (m : List (Nat × Nat × Nat)) (F : Nat) (v : Nat × Nat)
    (e : Nat × Nat × Nat) (he : e ∈ statsAssign m F v) : e ∈ m ∨ e = (F, v) := by
  induction m with
  | nil => simpa [statsAssign] using he
  | cons e' m ih =>
    obtain ⟨G, w⟩ := e'
    by_cases h : G = F
    · subst h
      simp only [statsAssign, if_true, List.mem_cons] at he
      rcases he with he | he
      · exact Or.inr he
      · exact Or.inl (List.mem_cons_of_mem _ he)
    · simp only [statsAssign, h, if_false, List.mem_cons] at he
      rcases he with he | he
      · exact Or.inl (he ▸ List.mem_cons_self _ _)
      · rcases ih he with h1 | h1
        · exact Or.inl (List.mem_cons_of_mem _ h1)
        · exact Or.inr h1

theorem collect_no_pointer {σ : Type} (E : Env σ) (k : Nat) (NFA : σ) (AMap : AnalysisMap)
    (M : Module) (st : Stats)
    (h : ∀ F ∈ M, F.empty = false → ptrOccurrences F.blocks = [])
    (hst : ∀ e ∈ st.FunctionStats, e.2.1 = 0) :
    ∀ e ∈ (collect E k NFA AMap M st).FunctionStats, e.2.1 = 0 := by
  induction M generalizing st with
  | nil => exact hst
  | cons F M ih =>
    have h' : ∀ G ∈ M, G.empty = false → ptrOccurrences G.blocks = [] :=
      fun G hG => h G (List.mem_cons_of_mem _ hG)
    unfold collect
    by_cases hB : F.empty = true
    · simp only [hB, if_true]
      exact ih st h' hst
    · have hB' : F.empty = false := by simpa using hB
      simp only [hB, if_false, Bool.false_eq_true]
      apply ih _ h'
      intro e he
      rcases mem_statsAssign _ _ _ e he with h1 | h1
      · exact hst e h1
      · subst h1
        simp only
        rw [countBody_bump, h F (List.mem_cons_self _ _) hB']
        rfl

theorem first_round_not_aborted {σ : Type} (E : Env σ) (swallow : Bool) (M : Module)
    (NFA : σ) :
    (runTasks E swallow (seed M ([], [])).2
      ((St.init (seed M ([], [])).1 NFA).beginRound (seed M ([], [])).2)).aborted = false :=
  (runTasks_slots E swallow _ _ (seed_slots M [] [] (fun K hK => by cases hK))).1

/-- The run is not ended by an exception when the pool swallows exceptions,
when the cap allows one round only, or when `recompute` emits only keys that
have a slot. -/
theorem not_aborted_of {σ : Type} (E : Env σ) (swallow : Bool) (CSRound : Nat) (M : Module)
    (NFA : σ)
    (h : swallow = true ∨ CSRound ≤ 1 ∨
      ∀ (s : σ), ∀ K ∈ (E.recompute s).2.2, ∃ F ∈ M, F.empty = false ∧ K = (F.id, [])) :
    (doWhile E swallow CSRound 1 (seed M ([], [])).2
      (St.init (seed M ([], [])).1 NFA)).aborted = false := by
  rcases h with h | h | h
  · subst h
    apply doWhile_invariant E true CSRound (fun s => s.aborted = false) ?_ ?_
      (CSRound - 1) 1 _ _ rfl rfl
    · intro s Ks hs
      rw [runTasks_swallow]; exact hs
    · intro s hs
      exact hs
  · rw [doWhile]
    have hlt : ¬ 1 < CSRound := by omega
    simp only [hlt, if_false]
    split <;> exact first_round_not_aborted E swallow M NFA
  · have hinv := doWhile_invariant_pending E swallow CSRound
      (fun s => KeysExact M s.AMap ∧ s.aborted = false)
      (fun Ks => ∀ K ∈ Ks, ∃ F ∈ M, F.empty = false ∧ K = (F.id, []))
      (fun s K hK => h s K ((mem_toSet _ _).1 hK)) ?_ ?_ (CSRound - 1) 1
      (seed M ([], [])).2 (St.init (seed M ([], [])).1 NFA) rfl ?_ ⟨seed_keysExact M, rfl⟩
    · exact hinv.2
    · intro s Ks ⟨hk, hab⟩ hg
      have hsl := runTasks_slots E swallow Ks (s.beginRound Ks)
        (fun K hK => (hk K).2 (hg K hK))
      refine ⟨steps_keysExact E M _ _ (runTasks_steps E M swallow Ks (s.beginRound Ks)) hk, ?_⟩
      rw [hsl.1]
      exact hab
    · intro s hs
      exact hs
    · intro K hK
      rcases seed_pending M [] [] K hK with h1 | h1
      · cases h1
      · exact h1

/-- The statistics of a module with no function with a body, or whose
functions have no pointer-typed operand, for any oracle: when the run reaches
them (it does unless an exception ended it, which cannot happen when the pool
swallows exceptions, when the cap is one round, or when `recompute` emits only
keys that have a slot) they are: total 0, NOT_NULL 0, the percentage the
literal 0, and no per-function line; and for any statistics a quotient is
formed only with a positive total, both for the program and in each
per-function line. -/
theorem degenerate_statistics {σ : Type} (E : Env σ) (swallow : Bool)
    (CSRound MaxContextDepth : Nat) (M : Module) (NFA : σ)
    (hdeg : (∀ F ∈ M, F.empty = true) ∨
      (∀ F ∈ M, ∀ BB ∈ F.blocks, ∀ I ∈ BB, ∀ Op ∈ I.operands, Op.isPointerTy = false)) :
    ((runOnModule E swallow CSRound MaxContextDepth M NFA).st.aborted = false →
      ∃ st : Stats, (runOnModule E swallow CSRound MaxContextDepth M NFA).stats = some st ∧
        st.TotalPtrInsts = 0 ∧ st.NotNullPtrInsts = 0 ∧ programPercentage st = .zero ∧
        ∀ b : Bool, perFunctionLines b st = []) ∧
    ((swallow = true ∨ CSRound ≤ 1 ∨
        ∀ (s : σ), ∀ K ∈ (E.recompute s).2.2, ∃ F ∈ M, F.empty = false ∧ K = (F.id, [])) →
      (runOnModule E swallow CSRound MaxContextDepth M NFA).st.aborted = false) ∧
    (∀ (st : Stats) (n d : Nat), programPercentage st = .quotient n d → 0 < d) ∧
    (∀ (st : Stats) (b : Bool), ∀ l ∈ perFunctionLines b st,
      0 < l.2.2.1 ∧ l.2.2.2 = .quotient l.2.1 l.2.2.1) := by
  have hocc : ∀ F ∈ M, F.empty = false → ptrOccurrences F.blocks = [] := by
    intro F hF hB
    rcases hdeg with h | h
    · rw [h F hF] at hB; cases hB
    · exact ptrOccurrences_nil_of_no_pointer _ (h F hF)
  refine ⟨fun hab => ?_, fun h => ?_, fun st n d h => ?_, fun st b l hl => ?_⟩
  · rw [runOnModule_st] at hab
    unfold runOnModule
    simp only [hab, Bool.false_eq_true, if_false]
    refine ⟨_, rfl, ?_, ?_, ?_, fun b => ?_⟩
    · rw [(collect_totals E MaxContextDepth _ M _).1, moduleOccurrences_nil M hocc]
      rfl
    · rw [(collect_totals E MaxContextDepth _ M _).2, moduleOccurrences_nil M hocc]
      rfl
    · unfold programPercentage
      rw [(collect_totals E MaxContextDepth _ M _).1, moduleOccurrences_nil M hocc]
      rfl
    · unfold perFunctionLines
      split
      · rw [List.filterMap_eq_nil_iff]
        intro e he
        have := collect_no_pointer E MaxContextDepth _ _ M _ hocc
          (fun e he => by cases he) e he
        simp [this]
      · rfl
  · rw [runOnModule_st]
    exact not_aborted_of E swallow CSRound M NFA h
  · unfold programPercentage at h
    split at h
    · rename_i hpos
      simp only [Percentage.quotient.injEq] at h
      omega
    · cases h
  · unfold perFunctionLines at hl
    split at hl
    · rw [List.mem_filterMap] at hl
      obtain ⟨e, _, he⟩ := hl
      split at he
      · rename_i hpos
        simp only [Option.some.injEq] at he
        subst he
        exact ⟨hpos, rfl⟩
      · cases he
    · cases hl

/-- The statistics of two concrete degenerate runs that no exception ends: a
module with a declaration only, and a module whose one function has an integer
operand only. -/
theorem degenerate_statistics_examples :
    (runOnModule envDirty true 2 3 [fnDecl] 0).st.aborted = false ∧
    (∃ st : Stats, (runOnModule envQuiet false 3 3 [fnDecl, fnInt] 0).stats = some st ∧
      st.TotalPtrInsts = 0 ∧ st.NotNullPtrInsts = 0 ∧ programPercentage st = .zero ∧
      ∀ b : Bool, perFunctionLines b st = []) :=
  ⟨(degenerate_statistics envDirty true 2 3 [fnDecl] 0 (Or.inl (by decide))).2.1
      (Or.inl rfl),
   (degenerate_statistics envQuiet false 3 3 [fnDecl, fnInt] 0 (Or.inr (by decide))).1
      ((degenerate_statistics envQuiet false 3 3 [fnDecl, fnInt] 0
        (Or.inr (by decide))).2.1 (Or.inr (Or.inr (fun _ K hK => by cases hK))))⟩

/-! ## Lemmas on the verbose dump -/

theorem keys_assign (m : AnalysisMap) (K : Key) (v : Option LocalAnalysis) :
    (m.assign K v).map Prod.fst =
      if K ∈ m.map Prod.fst then m.map Prod.fst else m.map Prod.fst ++ [K] := by
  induction m with
  | nil => simp [AnalysisMap.assign]
  | cons e m ih =>
    obtain ⟨K', v'⟩ := e
    by_cases h : K' = K
    · subst h
      simp [AnalysisMap.assign]
    · have h' : ¬ K = K' := fun e => h e.symm
      simp only [AnalysisMap.assign, h, if_false, List.map_cons, ih, List.mem_cons, h',
        false_or]
      split <;> simp

theorem nodupKeys_assign (m : AnalysisMap) (K : Key) (v : Option LocalAnalysis)
    (h : NodupKeys m) : NodupKeys (m.assign K v) := by
  unfold NodupKeys at h ⊢
  rw [keys_assign]
  split
  · exact h
  · rename_i hK
    rw [List.nodup_append]
    refine ⟨h, List.nodup_singleton K, ?_⟩
    intro a ha hb
    rw [List.mem_singleton] at hb
    subst hb
    exact hK ha

theorem find_of_mem_nodupKeys (m : AnalysisMap) (K : Key) (v : Option LocalAnalysis)
    (h : NodupKeys m) (hm : (K, v) ∈ m) : m.find K = some v := by
  induction m with
  | nil => cases hm
  | cons e m ih =>
    obtain ⟨K', v'⟩ := e
    unfold NodupKeys at h
    simp only [List.map_cons, List.nodup_cons] at h
    rw [find_cons]
    rcases List.mem_cons.1 hm with h1 | h1
    · obtain ⟨hK, hv⟩ := Prod.mk.inj h1
      simp [hK, hv]
    · have hne : K ≠ K' := by
        intro e
        subst e
        exact h.1 (List.mem_map.2 ⟨(K, v), h1, rfl⟩)
      simp only [hne, if_false]
      exact ih h.2 h1

theorem step_nodupKeys {σ : Type} (E : Env σ) (M : Module) (s s' : St σ)
    (h : Step E M s s') (hs : NodupKeys s.AMap) : NodupKeys s'.AMap := by
  cases h with
  | task K' _ _ h =>
    obtain ⟨a, _, hm, _⟩ := task_AMap E K' s s' h
    rw [hm]
    exact nodupKeys_assign _ _ _ hs
  | thrown => exact hs
  | beginRound _ Ks => exact hs
  | afterRecompute => exact hs
  | repairOne F _ hF hB hnone => exact nodupKeys_assign _ _ _ hs

theorem steps_nodupKeys {σ : Type} (E : Env σ) (M : Module) (s s' : St σ)
    (h : Steps E M s s') (hs : NodupKeys s.AMap) : NodupKeys s'.AMap := by
  induction h with
  | refl => exact hs
  | tail _ hstep ih => exact step_nodupKeys E M _ _ hstep ih

theorem seed_nodupKeys (M : Module) (A : AnalysisMap) (S : List Key) (h : NodupKeys A) :
    NodupKeys (seed M (A, S)).1 := by
  induction M generalizing A S with
  | nil => exact h
  | cons F M ih =>
    unfold seed
    split
    · exact ih _ _ (nodupKeys_assign _ _ _ h)
    · exact ih _ _ h

theorem mem_occOfBlock (BB : List Instruction) (o : Value × Instruction) :
    o ∈ occOfBlock BB ↔ o.2 ∈ BB ∧ o.1 ∈ o.2.operands ∧ o.1.isPointerTy = true := by
  induction BB with
  | nil => simp [occOfBlock]
  | cons I BB ih =>
    simp only [occOfBlock, List.mem_append, ih, occOfOperands, List.mem_map, List.mem_filter,
      List.mem_cons]
    constructor
    · rintro (⟨Op, ⟨h1, h2⟩, h3⟩ | ⟨h1, h2⟩)
      · subst h3
        exact ⟨Or.inl rfl, h1, h2⟩
      · exact ⟨Or.inr h1, h2⟩
    · rintro ⟨h1 | h1, h2⟩
      · left
        refine ⟨o.1, ⟨by rw [← h1]; exact h2.1, h2.2⟩, ?_⟩
        rw [← h1]
      · exact Or.inr ⟨h1, h2⟩

theorem mem_ptrOccurrences (blocks : List (List Instruction)) (o : Value × Instruction) :
    o ∈ ptrOccurrences blocks ↔
      ∃ BB ∈ blocks, o.2 ∈ BB ∧ o.1 ∈ o.2.operands ∧ o.1.isPointerTy = true := by
  induction blocks with
  | nil => simp [ptrOccurrences]
  | cons BB blocks ih =>
    simp only [ptrOccurrences, List.mem_append, ih, mem_occOfBlock, List.mem_cons]
    constructor
    · rintro (h | ⟨B, hB, h⟩)
      · exact ⟨BB, Or.inl rfl, h⟩
      · exact ⟨B, Or.inr hB, h⟩
    · rintro ⟨B, hB | hB, h⟩
      · subst hB; exact Or.inl h
      · exact Or.inr ⟨B, hB, h⟩

theorem mem_dumpEntry (F : Function) (Entry : Key × Option LocalAnalysis) (v : DumpLine) :
    v ∈ dumpEntry F Entry ↔
      Entry.1.1 = F.id ∧ ∃ LNCA : LocalAnalysis, Entry.2 = some LNCA ∧
        ∃ o ∈ ptrOccurrences F.blocks,
          v = { fn := F.id, ctx := Entry.1.2, Op := o.1, I := o.2,
                MayBeNull := LNCA.mayNull o.1 o.2 } := by
  obtain ⟨⟨f, c⟩, slot⟩ := Entry
  unfold dumpEntry
  by_cases hf : f = F.id
  · cases slot with
    | none => simp [hf]
    | some LNCA =>
      simp only [hf, if_true, List.mem_flatMap, List.mem_filterMap, true_and,
        Option.some.injEq, exists_eq_left', mem_ptrOccurrences]
      constructor
      · rintro ⟨BB, hBB, I, hI, Op, hOp, h⟩
        split at h
        · rename_i hp
          simp only [Option.some.injEq] at h
          exact ⟨(Op, I), ⟨BB, hBB, hI, hOp, hp⟩, h.symm⟩
        · cases h
      · rintro ⟨⟨Op, I⟩, ⟨BB, hBB, hI, hOp, hp⟩, h⟩
        exact ⟨BB, hBB, I, hI, Op, hOp, by simp only at hp; simp [hp, h]⟩
  · simp [hf]

theorem mem_verboseDump (AMap : AnalysisMap) (M : Module) (v : DumpLine) :
    v ∈ verboseDump true AMap M ↔
      ∃ F ∈ M, F.empty = false ∧ ∃ (c : Context) (LNCA : LocalAnalysis),
        ((F.id, c), some LNCA) ∈ AMap ∧ ∃ o ∈ ptrOccurrences F.blocks,
          v = { fn := F.id, ctx := c, Op := o.1, I := o.2,
                MayBeNull := LNCA.mayNull o.1 o.2 } := by
  unfold verboseDump
  simp only [if_true, List.mem_flatMap]
  constructor
  · rintro ⟨F, hF, h⟩
    by_cases hB : F.empty = true
    · simp [hB] at h
    · have hB' : F.empty = false := by simpa using hB
      simp only [hB', Bool.false_eq_true, if_false, List.mem_flatMap] at h
      obtain ⟨⟨⟨f, c⟩, slot⟩, hmem, hv⟩ := h
      obtain ⟨hf, LNCA, hs, o, ho, hve⟩ := (mem_dumpEntry F _ v).1 hv
      simp only at hf hs hve
      subst hf hs
      exact ⟨F, hF, hB', c, LNCA, hmem, o, ho, hve⟩
  · rintro ⟨F, hF, hB, c, LNCA, hmem, o, ho, hv⟩
    refine ⟨F, hF, ?_⟩
    simp only [hB, Bool.false_eq_true, if_false, List.mem_flatMap]
    exact ⟨((F.id, c), some LNCA), hmem, (mem_dumpEntry F _ v).2 ⟨rfl, LNCA, rfl, o, ho, hv⟩⟩
theorem limitContext_nil (k : Nat) : limitContext k [] = [] := by
  unfold limitContext
  simp

theorem mayNull_at_entry {σ : Type} (E : Env σ) (k : Nat) (NFA : σ) (m : AnalysisMap)
    (f : Nat) (LNCA : LocalAnalysis) (Op : Value) (I : Instruction)
    (hn : NodupKeys m) (hm : ((f, []), some LNCA) ∈ m) (hI : I.getFunction = f) :
    mayNull E k NFA m Op I [] =
      if E.notNull NFA Op (limitContext k []) then false else LNCA.mayNull Op I := by
  have hf := find_of_mem_nodupKeys m _ _ hn hm
  unfold mayNull
  simp only [limitContext_nil, hI, hf]

theorem runOnModule_final_invariants {σ : Type} (E : Env σ) (swallow : Bool)
    (CSRound MaxContextDepth : Nat) (M : Module) (NFA : σ) :
    KeysExact M (runOnModule E swallow CSRound MaxContextDepth M NFA).st.AMap ∧
    NodupKeys (runOnModule E swallow CSRound MaxContextDepth M NFA).st.AMap ∧
    AllCompleted (runOnModule E swallow CSRound MaxContextDepth M NFA).st.AMap := by
  have hs := runOnModule_steps E swallow CSRound MaxContextDepth M NFA
  refine ⟨steps_keysExact E M _ _ hs (seed_keysExact M),
    steps_nodupKeys E M _ _ hs (seed_nodupKeys M [] [] List.nodup_nil), ?_⟩
  rw [runOnModule_st]
  exact doWhile_allCompleted E swallow CSRound 1 _ _
    (seed_allCompleted M [] [] (fun e he => by cases he))

/-- The final map of the run of `envProves` with cap 1: one analysis, under
`(0, [])`, whose verdict is MAY_NULL everywhere. -/
theorem run_proves_map :
    (runOnModule envProves true 1 3 [fnDecl, fnF] 0).st.AMap =
      [((0, []), some { oid := 0, fn := 0, ctx := [], runs := 1, verdict := fun _ _ => true })] := by
  simp [runOnModule, doWhile, seed, St.init, St.beginRound, St.afterRecompute, runTasks, task,
    Function.empty, fnF, fnDecl, AnalysisMap.assign, find_cons, find_nil, setInsert, toSet,
    envProves, repair, LocalAnalysis.create]

/-! ## The verbose dump: theorems -/

/-- C21 as stated fails: in the run of `envProves` the local analysis of
function 0 reports MAY_NULL for `ptrP`, which the dump prints, while the
oracle proves `ptrP` NOT_NULL, so the engine query `mayNull` is false; the
statistics count the operand as NOT_NULL although the dump prints NOT_NULL
for it under no context. -/
theorem dump_differs_from_query :
    (¬ ∀ v ∈ verboseDump true (runOnModule envProves true 1 3 [fnDecl, fnF] 0).st.AMap
        [fnDecl, fnF],
      v.MayBeNull = mayNull envProves 3 (runOnModule envProves true 1 3 [fnDecl, fnF] 0).st.NFA
        (runOnModule envProves true 1 3 [fnDecl, fnF] 0).st.AMap v.Op v.I v.ctx) ∧
    countedNotNull envProves 3 (runOnModule envProves true 1 3 [fnDecl, fnF] 0).st fnF
      (ptrP, instI) = true ∧
    (∀ v ∈ verboseDump true (runOnModule envProves true 1 3 [fnDecl, fnF] 0).st.AMap
        [fnDecl, fnF], v.MayBeNull = true) := by
  have hq : ∀ (NFA : Nat) (m : AnalysisMap) (c : Context),
      mayNull envProves 3 NFA m ptrP instI c = false := by
    intro NFA m c
    simp [mayNull, envProves, ptrP]
  refine ⟨fun h => ?_, ?_, fun v hv => ?_⟩
  · have hmem : ({ fn := fnF.id, ctx := [], Op := ptrP, I := instI, MayBeNull := true } :
        DumpLine) ∈ verboseDump true
          (runOnModule envProves true 1 3 [fnDecl, fnF] 0).st.AMap [fnDecl, fnF] := by
      rw [mem_verboseDump]
      refine ⟨fnF, by simp, rfl, [],
        { oid := 0, fn := 0, ctx := [], runs := 1, verdict := fun _ _ => true }, ?_,
        (ptrP, instI), by decide, rfl⟩
      rw [run_proves_map]
      exact List.mem_singleton.2 rfl
    have := h _ hmem
    rw [hq] at this
    cases this
  · unfold countedNotNull
    rw [isNotNull_iff]
    refine ⟨[], ?_, hq _ _ _⟩
    rw [mem_functionContexts, run_proves_map]
    exact ⟨_, List.mem_singleton.2 rfl⟩
  · rw [mem_verboseDump] at hv
    obtain ⟨F, _, _, c, LNCA, hmem, o, _, hve⟩ := hv
    rw [run_proves_map, List.mem_singleton] at hmem
    have hL := (Prod.mk.inj hmem).2
    simp only [Option.some.injEq] at hL
    subst hL
    rw [hve]
    rfl

/-- C21, amended: in the state a run ends in (for a module whose instructions
name their own function), every line of the verbose dump is for an entry that
holds a completed analysis and prints that analysis's own verdict, and every
such entry and pointer-typed operand has its line; the engine query `mayNull`
for the same operand, instruction and context is NOT_NULL when the oracle
proves `notNull` at the truncated context and equals the printed verdict
otherwise.  Hence an operand for which the dump prints NOT_NULL under some
context is counted NOT_NULL by the statistics, and an operand counted
NOT_NULL has NOT_NULL printed under some context or is proven `notNull` by the
oracle at the truncated context of an entry of its function. -/
theorem dump_and_query_verdicts {σ : Type} (E : Env σ) (swallow : Bool)
    (CSRound MaxContextDepth : Nat) (M : Module) (NFA : σ)
    (hwf : ∀ F ∈ M, ∀ o ∈ ptrOccurrences F.blocks, o.2.getFunction = F.id) :
    (∀ v ∈ verboseDump true (runOnModule E swallow CSRound MaxContextDepth M NFA).st.AMap M,
      ∃ LNCA : LocalAnalysis,
        (runOnModule E swallow CSRound MaxContextDepth M NFA).st.AMap.find (v.fn, v.ctx) =
          some (some LNCA) ∧
        LNCA.completed ∧ v.MayBeNull = LNCA.mayNull v.Op v.I ∧
        mayNull E MaxContextDepth (runOnModule E swallow CSRound MaxContextDepth M NFA).st.NFA
            (runOnModule E swallow CSRound MaxContextDepth M NFA).st.AMap v.Op v.I v.ctx =
          if E.notNull (runOnModule E swallow CSRound MaxContextDepth M NFA).st.NFA v.Op
              (limitContext MaxContextDepth v.ctx) then false
          else v.MayBeNull) ∧
    (∀ F ∈ M, F.empty = false → ∀ (c : Context) (LNCA : LocalAnalysis),
      ((F.id, c), some LNCA) ∈
        (runOnModule E swallow CSRound MaxContextDepth M NFA).st.AMap →
      ∀ o ∈ ptrOccurrences F.blocks,
        ({ fn := F.id, ctx := c, Op := o.1, I := o.2, MayBeNull := LNCA.mayNull o.1 o.2 } :
          DumpLine) ∈
          verboseDump true (runOnModule E swallow CSRound MaxContextDepth M NFA).st.AMap M) ∧
    (∀ F ∈ M, F.empty = false → ∀ o ∈ ptrOccurrences F.blocks,
      ((∃ v ∈ verboseDump true
            (runOnModule E swallow CSRound MaxContextDepth M NFA).st.AMap M,
          v.fn = F.id ∧ v.Op = o.1 ∧ v.I = o.2 ∧ v.MayBeNull = false) →
        countedNotNull E MaxContextDepth
          (runOnModule E swallow CSRound MaxContextDepth M NFA).st F o = true) ∧
      (countedNotNull E MaxContextDepth
          (runOnModule E swallow CSRound MaxContextDepth M NFA).st F o = true →
        (∃ v ∈ verboseDump true
            (runOnModule E swallow CSRound MaxContextDepth M NFA).st.AMap M,
          v.fn = F.id ∧ v.Op = o.1 ∧ v.I = o.2 ∧ v.MayBeNull = false) ∨
        ∃ c ∈ functionContexts
            (runOnModule E swallow CSRound MaxContextDepth M NFA).st.AMap F,
          E.notNull (runOnModule E swallow CSRound MaxContextDepth M NFA).st.NFA o.1
            (limitContext MaxContextDepth c) = true)) := by
  obtain ⟨hk, hn, hall⟩ := runOnModule_final_invariants E swallow CSRound MaxContextDepth M NFA
  generalize (runOnModule E swallow CSRound MaxContextDepth M NFA).st = r at hk hn hall ⊢
  have hctx : ∀ (f : Nat) (c : Context) (a : LocalAnalysis),
      ((f, c), some a) ∈ r.AMap → c = [] := by
    intro f c a hm
    obtain ⟨G, _, _, hK⟩ := (hk (f, c)).1 (mem_find_isSome _ _ _ hm)
    exact (Prod.mk.inj hK).2
  refine ⟨fun v hv => ?_, fun F hF hB c LNCA hm o ho => ?_, fun F hF hB o ho => ⟨?_, ?_⟩⟩
  · obtain ⟨F, hF, hB, c, LNCA, hm, o, ho, hve⟩ := (mem_verboseDump r.AMap M v).1 hv
    have hc := hctx _ _ _ hm
    subst hc
    subst hve
    refine ⟨LNCA, find_of_mem_nodupKeys _ _ _ hn hm, hall _ hm LNCA rfl, rfl, ?_⟩
    exact mayNull_at_entry E MaxContextDepth r.NFA r.AMap F.id LNCA o.1 o.2 hn hm
      (hwf F hF o ho)
  · exact (mem_verboseDump r.AMap M _).2 ⟨F, hF, hB, c, LNCA, hm, o, ho, rfl⟩
  · rintro ⟨v, hv, h1, h2, h3, h4⟩
    obtain ⟨G, hG, hGB, c, LNCA, hm, o', ho', hve⟩ := (mem_verboseDump r.AMap M v).1 hv
    have hc := hctx _ _ _ hm
    subst hc
    subst hve
    simp only at h1 h2 h3 h4
    rw [h1] at hm
    unfold countedNotNull
    rw [isNotNull_iff]
    refine ⟨[], (mem_functionContexts _ F []).2 ⟨LNCA, hm⟩, ?_⟩
    rw [mayNull_at_entry E MaxContextDepth r.NFA r.AMap F.id LNCA o.1 o.2 hn hm
      (hwf F hF o ho)]
    split
    · rfl
    · rw [← h2, ← h3]; exact h4
  · intro hc
    unfold countedNotNull at hc
    rw [isNotNull_iff] at hc
    obtain ⟨c, hcm, hq⟩ := hc
    obtain ⟨a, ha⟩ := (mem_functionContexts _ F c).1 hcm
    have hce := hctx _ _ _ ha
    subst hce
    rw [mayNull_at_entry E MaxContextDepth r.NFA r.AMap F.id a o.1 o.2 hn ha
      (hwf F hF o ho)] at hq
    by_cases hO : E.notNull r.NFA o.1 (limitContext MaxContextDepth []) = true
    · exact Or.inr ⟨[], hcm, hO⟩
    · simp only [hO, if_false, Bool.false_eq_true] at hq
      left
      exact ⟨_, (mem_verboseDump r.AMap M _).2 ⟨F, hF, hB, [], a, ha, o, ho, rfl⟩,
        rfl, rfl, rfl, hq⟩

/-- The amended C21 at the run of `envQuiet`: the oracle proves nothing, the
dump prints NOT_NULL for `ptrP` under the empty context, and the statistics
count it as NOT_NULL. -/
theorem dump_and_query_verdicts_witness :
    countedNotNull envQuiet 3 (runOnModule envQuiet true 1 3 [fnDecl, fnF] 0).st fnF
      (ptrP, instI) = true := by
  have hwf : ∀ F ∈ [fnDecl, fnF], ∀ o ∈ ptrOccurrences F.blocks, o.2.getFunction = F.id := by
    decide
  have h := dump_and_query_verdicts envQuiet true 1 3 [fnDecl, fnF] 0 hwf
  obtain ⟨a, ha, _⟩ := loop_completes envQuiet true 1 [fnDecl, fnF] 0 fnF (by decide) rfl
  rw [← runOnModule_st envQuiet true 1 3 [fnDecl, fnF] 0] at ha
  have hv : a.mayNull ptrP instI = false := by
    have hr : runsAt (runOnModule envQuiet true 1 3 [fnDecl, fnF] 0).st.AMap (0, []) = 1 ∧
        ∀ b : LocalAnalysis,
          (runOnModule envQuiet true 1 3 [fnDecl, fnF] 0).st.AMap.find (0, []) =
            some (some b) → b.mayNull ptrP instI = false := by
      simp [runOnModule, doWhile, seed, St.init, St.beginRound, St.afterRecompute, runTasks,
        task, Function.empty, fnF, fnDecl, AnalysisMap.assign, find_cons, find_nil, setInsert,
        toSet, envQuiet, repair, runsAt, LocalAnalysis.create, LocalAnalysis.mayNull, ptrP]
    exact hr.2 a ha
  exact (h.2.2 fnF (by decide) rfl (ptrP, instI) (by decide)).1
    ⟨_, h.2.1 fnF (by decide) rfl [] a (find_mem _ _ _ ha) (ptrP, instI) (by decide),
      rfl, rfl, rfl, hv⟩

/-! ## The rounds under the contract of `recompute` -/

theorem toSet_eq_nil_iff (d : List Key) : toSet d = [] ↔ d = [] := by
  rw [List.eq_nil_iff_forall_not_mem, List.eq_nil_iff_forall_not_mem]
  exact forall_congr' (fun K => not_congr (mem_toSet d K))

theorem doWhile_evals_from_recompute {σ : Type} (E : Env σ) (swallow : Bool)
    (CSRound Count : Nat) (Ks : List Key) (s : St σ)
    (hs : ∀ e ∈ s.evals, ∃ NFA : σ, e = ((E.recompute NFA).2.1, (E.recompute NFA).2.2)) :
    ∀ e ∈ (doWhile E swallow CSRound Count Ks s).evals,
      ∃ NFA : σ, e = ((E.recompute NFA).2.1, (E.recompute NFA).2.2) := by
  apply doWhile_invariant E swallow CSRound
    (fun s' => ∀ e ∈ s'.evals, ∃ NFA : σ, e = ((E.recompute NFA).2.1, (E.recompute NFA).2.2))
    ?_ ?_ (CSRound - Count) Count Ks s rfl hs
  · intro s' Ks' hs' e he
    rw [(runTasks_round_logs E swallow Ks' s').2] at he
    exact hs' e he
  · intro s' hs' e he
    rw [afterRecompute_evals] at he
    rcases List.mem_append.1 he with h | h
    · exact hs' e h
    · rw [List.mem_singleton] at h
      exact ⟨s'.NFA, h⟩

theorem runOnModule_evals_from_recompute {σ : Type} (E : Env σ) (swallow : Bool)
    (CSRound MaxContextDepth : Nat) (M : Module) (NFA : σ) (j : Nat) (b : Bool)
    (d : List Key)
    (h : (runOnModule E swallow CSRound MaxContextDepth M NFA).st.evals.get? j = some (b, d)) :
    ∃ NFA' : σ, b = (E.recompute NFA').2.1 ∧ d = (E.recompute NFA').2.2 := by
  rw [runOnModule_st] at h
  have hm : (b, d) ∈ (doWhile E swallow CSRound 1 (seed M ([], [])).2
      (St.init (seed M ([], [])).1 NFA)).evals := by
    exact List.get?_mem h
  obtain ⟨NFA', he⟩ := doWhile_evals_from_recompute E swallow CSRound 1 _ _
    (fun e he => by cases he) _ hm
  exact ⟨NFA', (Prod.mk.inj he).1, (Prod.mk.inj he).2⟩

/-- C8: for an oracle that keeps the contract of `recompute` (it reports a
change exactly when it emits a key), after each round the loop goes on exactly
when the cap is not reached and the dirty set `recompute` produced is not
empty.  `recompute` is called after round `j + 1` only when `j + 1 < CSRound`;
round `j + 2` is executed if and only if the set that call produced is
non-empty, and its pending set is then exactly that set; a round is executed
only after such a call; and unless an exception has ended the run,
`recompute` is called after every executed round below the cap. -/
theorem round_iff_dirty_nonempty {σ : Type} (E : Env σ) (swallow : Bool)
    (CSRound MaxContextDepth : Nat) (M : Module) (NFA : σ) (hO : RecomputeContract E) :
    (∀ (j : Nat) (b : Bool) (d : List Key),
      (runOnModule E swallow CSRound MaxContextDepth M NFA).st.evals.get? j = some (b, d) →
      j + 1 < CSRound ∧
      (((runOnModule E swallow CSRound MaxContextDepth M NFA).st.rounds.get? (j + 1)).isSome =
          true ↔ toSet d ≠ []) ∧
      (toSet d ≠ [] →
        (runOnModule E swallow CSRound MaxContextDepth M NFA).st.rounds.get? (j + 1) =
          some (toSet d))) ∧
    (∀ j : Nat,
      ((runOnModule E swallow CSRound MaxContextDepth M NFA).st.rounds.get? (j + 1)).isSome =
        true →
      j + 1 < CSRound ∧
      ∃ (b : Bool) (d : List Key),
        (runOnModule E swallow CSRound MaxContextDepth M NFA).st.evals.get? j = some (b, d) ∧
        toSet d ≠ [] ∧
        (runOnModule E swallow CSRound MaxContextDepth M NFA).st.rounds.get? (j + 1) =
          some (toSet d)) ∧
    ((runOnModule E swallow CSRound MaxContextDepth M NFA).st.aborted = false →
      ∀ j : Nat, j < (runOnModule E swallow CSRound MaxContextDepth M NFA).st.rounds.length →
        j + 1 < CSRound →
        j < (runOnModule E swallow CSRound MaxContextDepth M NFA).st.evals.length) := by
  have L := runOnModule_round_follows_recompute E swallow CSRound MaxContextDepth M NFA
  have hb : ∀ (j : Nat) (b : Bool) (d : List Key),
      (runOnModule E swallow CSRound MaxContextDepth M NFA).st.evals.get? j = some (b, d) →
      (b = true ↔ toSet d ≠ []) := by
    intro j b d h
    obtain ⟨NFA', h1, h2⟩ :=
      runOnModule_evals_from_recompute E swallow CSRound MaxContextDepth M NFA j b d h
    rw [h1, h2, hO NFA', Ne, Ne, toSet_eq_nil_iff]
  refine ⟨fun j b d h => ?_, fun j hj => ?_, L.2.2⟩
  · obtain ⟨h1, h2⟩ := L.1 j b d h
    have hbd := hb j b d h
    cases b with
    | true =>
      have hne : toSet d ≠ [] := hbd.1 rfl
      simp only [if_true] at h2
      exact ⟨h1, by rw [h2]; simp [hne], fun _ => h2⟩
    | false =>
      have he : toSet d = [] := by
        by_contra hne
        exact Bool.noConfusion (hbd.2 hne)
      simp only [Bool.false_eq_true, if_false] at h2
      exact ⟨h1, by rw [h2]; simp [he], fun hne => absurd he hne⟩
  · obtain ⟨d, hd⟩ := L.2.1 j hj
    obtain ⟨h1, h2⟩ := L.1 j true d hd
    simp only [if_true] at h2
    exact ⟨h1, true, d, hd, (hb j true d hd).1 rfl, h2⟩

/-- The theorem of C8 at a concrete run: `recompute` of `envDirty` keeps the
contract, it emits `(0, [csA])` after round 1, and round 2 is executed with
exactly that pending set. -/
theorem round_iff_dirty_nonempty_witness :
    (runOnModule envDirty true 2 3 [fnDecl, fnF] 0).st.rounds.get? (0 + 1) =
      some (toSet [(0, [csA])]) :=
  ((round_iff_dirty_nonempty envDirty true 2 3 [fnDecl, fnF] 0
      (fun _ => by simp [envDirty])).1 0 true [(0, [csA])]
    (by rw [run_dirty_logs.2]; rfl)).2.2 (by decide)

/-! ## Degenerate modules and the exception of a task -/

end CSNCA
